import Mathlib

/-!
# Collaborative filter (`server/ml/collaborativefiltering.go`)

A shallow embedding of the Go type `CollaborativeFilter` and of its methods.

* `[][]float64` is a list of rows (`Mat`); `float64` is read as an exact
  rational number, so every statement below is a statement in exact arithmetic.
* A Go run-time panic (index out of range, `make` with a negative length) is
  the result `none`.
* A counted loop `for i := 0; i < n; i++ { ... }` is `forLoop`, which threads the
  loop's mutable variables through the body.
* `rand.Float64()` is a sequence `draws` of numbers, read in order after each reseeding.
* The matrix package `mt` and the function `powTwo`, which `CostFunction` calls, are not
  part of the source file; they are modelled from the list of matrix primitives of the
  specification.
-/

namespace ml

/-- Matrices are slices of slices of numbers. -/
abbrev Mat := List (List ℚ)

/-- The struct `CollaborativeFilter`. -/
structure CollaborativeFilter where
  Ratings : Mat
  AvailableRatings : Mat
  ItemsTheta : Mat
  Theta : Mat
  Means : List ℚ
  Features : Int
  Predictions : Mat
deriving DecidableEq

/-- The loop `for i := 0; i < n; i++ { s = body i s }`: iterations `0, 1, ..., n-1` in
this order, stopping at the first one that fails. -/
def forLoop {σ : Type} (body : Nat → σ → Option σ) : Nat → σ → Option σ
  | 0, s => some s
  | n + 1, s => (forLoop body n s).bind (body n)

/-- The assignment `xs[k] = v`, which fails when `k` is not an index of `xs`. -/
def setAt {α : Type} (xs : List α) (k : Nat) (v : α) : Option (List α) :=
  if k < xs.length then some (xs.set k v) else none

/-- The read `x[i][j]` of a matrix entry. -/
def at2 (x : Mat) (i j : Nat) : Option ℚ :=
  (x[i]?).bind fun row => row[j]?

/-- The read `x[p][i][j]` of an entry of a slice of matrices. -/
def at3 (x : List Mat) (p i j : Nat) : Option ℚ :=
  (x[p]?).bind fun m => at2 m i j

/-- The method `getTheta`. -/
def getTheta (cf : CollaborativeFilter) : List Mat :=
  [cf.ItemsTheta, cf.Theta]

/-- The method `rollThetasGrad`: both matrices of `x` written into one row, whose length
and layout come from the shapes of `cf.ItemsTheta` and `cf.Theta`. -/
def rollThetasGrad (cf : CollaborativeFilter) (x : List Mat) : Option Mat := do
  let it0 ← cf.ItemsTheta[0]?
  let t0 ← cf.Theta[0]?
  let values : List ℚ :=
    List.replicate (cf.ItemsTheta.length * it0.length + cf.Theta.length * t0.length) 0
  let values ← forLoop (fun i values =>
      forLoop (fun j values => do
        let v ← at3 x 0 i j
        setAt values (i * it0.length + j) v) it0.length values)
    cf.ItemsTheta.length values
  let values ← forLoop (fun i values =>
      forLoop (fun j values => do
        let v ← at3 x 1 i j
        setAt values (cf.ItemsTheta.length * it0.length + i * t0.length + j) v)
        t0.length values)
    cf.Theta.length values
  pure [values]

/-- The method `unrollThetasGrad`: the row `x[0]` cut back into two matrices with the
shapes of `cf.ItemsTheta` and `cf.Theta`. -/
def unrollThetasGrad (cf : CollaborativeFilter) (x : Mat) : Option (List Mat) := do
  let r0 : Mat := List.replicate cf.ItemsTheta.length []
  let r0 ← forLoop (fun i r0 => do
      let it0 ← cf.ItemsTheta[0]?
      let row ← forLoop (fun j row => do
          let v ← at2 x 0 (i * it0.length + j)
          setAt row j v) it0.length (List.replicate it0.length 0)
      setAt r0 i row)
    cf.ItemsTheta.length r0
  let r1 : Mat := List.replicate cf.Theta.length []
  let r1 ← forLoop (fun i r1 => do
      let it0 ← cf.ItemsTheta[0]?
      let t0 ← cf.Theta[0]?
      let row ← forLoop (fun j row => do
          let v ← at2 x 0 (cf.ItemsTheta.length * it0.length + i * t0.length + j)
          setAt row j v) t0.length (List.replicate t0.length 0)
      setAt r1 i row)
    cf.Theta.length r1
  pure [r0, r1]

/-- The method `CalcMeans`. For a row without observed entries Go stores the float `0 / 0`;
the model stores the rational `0 / 0`, and no statement below reads that entry. -/
def CalcMeans (cf : CollaborativeFilter) : Option CollaborativeFilter := do
  let means : List ℚ := List.replicate cf.Ratings.length 0
  let r0 ← cf.Ratings[0]?
  let width := r0.length
  let means ← forLoop (fun i means => do
      let (means, scores) ← forLoop (fun j (st : List ℚ × ℚ) => do
          let a ← at2 cf.AvailableRatings i j
          if a = 1 then do
            let r ← at2 cf.Ratings i j
            let mi ← st.1[i]?
            let means ← setAt st.1 i (mi + r)
            pure (means, st.2 + 1)
          else pure st) width (means, 0)
      let mi ← means[i]?
      setAt means i (mi / scores))
    cf.Ratings.length means
  pure { cf with Means := means }

/-- The method `Normalize`: the normalised ratings, and the filter after the call (its
`Means` are computed when they were empty). -/
def Normalize (cf : CollaborativeFilter) : Option (Mat × CollaborativeFilter) := do
  let cf ← if cf.Means.length = 0 then CalcMeans cf else pure cf
  let r0 ← cf.Ratings[0]?
  let width := r0.length
  let normRatings : Mat := List.replicate cf.Ratings.length []
  let normRatings ← forLoop (fun i normRatings => do
      let row ← forLoop (fun j (row : List ℚ) => do
          let a ← at2 cf.AvailableRatings i j
          if a = 1 then do
            let r ← at2 cf.Ratings i j
            let mean ← cf.Means[i]?
            setAt row j (r - mean)
          else pure row) width (List.replicate width 0)
      setAt normRatings i row)
    cf.Ratings.length normRatings
  pure (normRatings, cf)

/-- The method `AddUser`. The map `votes` is its lookup function; `draws` is the sequence
of values that `rand.Float64()` returns after the reseeding. -/
def AddUser (cf : CollaborativeFilter) (votes : Int → Option ℚ) (draws : Nat → ℚ) :
    Option CollaborativeFilter := do
  let cf ← forLoop (fun i (cf : CollaborativeFilter) =>
      match votes (i : Int) with
      | some score => do
        let r ← cf.Ratings[i]?
        let cf := { cf with Ratings := cf.Ratings.set i (r ++ [score]) }
        let a ← cf.AvailableRatings[i]?
        pure { cf with AvailableRatings := cf.AvailableRatings.set i (a ++ [1]) }
      | none => do
        let r ← cf.Ratings[i]?
        let cf := { cf with Ratings := cf.Ratings.set i (r ++ [0]) }
        let a ← cf.AvailableRatings[i]?
        pure { cf with AvailableRatings := cf.AvailableRatings.set i (a ++ [0]) })
    cf.Ratings.length cf
  if cf.Features < 0 then none
  else do
    let theta : Mat := cf.Theta ++ [List.replicate cf.Features.toNat 0]
    let (theta, _) ← forLoop (fun i (st : Mat × Nat) => do
        let last ← st.1[st.1.length - 1]?
        if draws st.2 > 0.5 then do
          let last ← setAt last i (draws (st.2 + 1))
          let theta ← setAt st.1 (st.1.length - 1) last
          pure (theta, st.2 + 2)
        else do
          let last ← setAt last i (0 - draws (st.2 + 1))
          let theta ← setAt st.1 (st.1.length - 1) last
          pure (theta, st.2 + 2))
      cf.Features.toNat (theta, 0)
    pure { cf with Theta := theta }

/-! ### The matrix collaborator `mt` and `powTwo`

`CostFunction` calls the matrix package `mt` and the function `powTwo`, neither of which
is part of the source file. -/

/-- Modelled from the spec: `powTwo`, the square that `Apply` maps over a matrix
("`Σ E_ij²`"); its definition is not in the source file. -/
def powTwo (x : ℚ) : ℚ := x * x

namespace mt

/-- Inner product of two rows. -/
def dot (a b : List ℚ) : ℚ := (List.zipWith (fun x y => x * y) a b).sum

/-- Modelled from the spec: `mt.MultTrans`, "matrix multiply-with-transpose" `A · Bᵗ`;
the package is a collaborator outside the source file. No result when a row of `A` and a
row of `B` differ in length. -/
def MultTrans (A B : Mat) : Option Mat :=
  if ∀ a ∈ A, ∀ b ∈ B, a.length = b.length then
    some (A.map fun a => B.map fun b => dot a b)
  else none

/-- Modelled from the spec: `mt.Sub`, "elementwise subtract"; no result when the shapes
differ. -/
def Sub (A B : Mat) : Option Mat :=
  if A.map List.length = B.map List.length then
    some (List.zipWith (List.zipWith fun x y => x - y) A B)
  else none

/-- Modelled from the spec: `mt.Sum`, the elementwise sum of two matrices; no result when
the shapes differ. -/
def Sum (A B : Mat) : Option Mat :=
  if A.map List.length = B.map List.length then
    some (List.zipWith (List.zipWith fun x y => x + y) A B)
  else none

/-- Modelled from the spec: `mt.MultElems`, "elementwise multiply"; no result when the
shapes differ. -/
def MultElems (A B : Mat) : Option Mat :=
  if A.map List.length = B.map List.length then
    some (List.zipWith (List.zipWith fun x y => x * y) A B)
  else none

/-- Modelled from the spec: `mt.Apply`, "apply-unary" to every entry. -/
def Apply (A : Mat) (f : ℚ → ℚ) : Mat := A.map (List.map f)

/-- Modelled from the spec: `mt.SumAll`, "sum-all" entries. -/
def SumAll (A : Mat) : ℚ := (A.map List.sum).sum

/-- Modelled from the spec: `mt.MultBy`, "scalar multiply" of every entry. -/
def MultBy (A : Mat) (c : ℚ) : Mat := A.map (List.map fun x => x * c)

/-- Modelled from the spec: `mt.Trans`, "transpose"; no result when the rows differ in
length. A slice of slices with no row has no column count, so its transpose is empty. -/
def Trans (A : Mat) : Option Mat :=
  match A with
  | [] => some []
  | r0 :: rest =>
    if ∀ r ∈ rest, r.length = r0.length then
      some ((List.range r0.length).map fun k => (r0 :: rest).map fun row => row.getD k 0)
    else none

/-- Modelled from the spec: `mt.Mult`, "matrix multiply" `A · B`; no result when the row
length of `A` is not the row count of `B`, or when `B` is ragged. -/
def Mult (A B : Mat) : Option Mat := do
  let Bt ← Trans B
  if ∀ a ∈ A, a.length = B.length then
    some (A.map fun a => Bt.map fun b => dot a b)
  else none

end mt

/-- The method `CostFunction`: the cost `j` and the gradients `grad` (`nil` unless
`calcGrad`). The third result `err` is never assigned in the source, so it is always `nil`
and is left out. -/
def CostFunction (cf : CollaborativeFilter) (lambda : ℚ) (calcGrad : Bool) :
    Option (ℚ × List Mat) := do
  let pq ← mt.MultTrans cf.ItemsTheta cf.Theta
  let diff ← mt.Sub pq cf.Ratings
  let aux ← mt.MultElems diff cf.AvailableRatings
  let j := (mt.SumAll (mt.Apply aux powTwo) / 2)
    + (lambda / 2 * mt.SumAll (mt.Apply cf.Theta powTwo))
    + lambda / 2 * mt.SumAll (mt.Apply cf.ItemsTheta powTwo)
  if calcGrad then do
    let auxTheta ← mt.Mult aux cf.Theta
    let itemsGrad ← mt.Sum auxTheta (mt.MultBy cf.ItemsTheta lambda)
    let auxT ← mt.Trans aux
    let auxTItems ← mt.Mult auxT cf.ItemsTheta
    let thetaGrad ← mt.Sum auxTItems (mt.MultBy cf.Theta lambda)
    pure (j, [itemsGrad, thetaGrad])
  else pure (j, [])

/-- The method `MakePredictions`. -/
def MakePredictions (cf : CollaborativeFilter) : Option CollaborativeFilter := do
  let predictions ← mt.MultTrans cf.ItemsTheta cf.Theta
  pure { cf with Predictions := predictions }

/-- The method `GetPredictionsFor`: the loop ranges over the rows of `Predictions`, the
result has the length of `Ratings`. A negative `userPos` is no index. -/
def GetPredictionsFor (cf : CollaborativeFilter) (userPos : Int) : Option (List ℚ) :=
  forLoop (fun i (preds : List ℚ) => do
      let pred ← cf.Predictions[i]?
      if userPos < 0 then none
      else do
        let p ← pred[userPos.toNat]?
        let mean ← cf.Means[i]?
        setAt preds i (p + mean))
    cf.Predictions.length (List.replicate cf.Ratings.length 0)

/-- The method `InitializeThetas`. The state of the loops is the matrix being filled and
the number of values of `rand.Float64()` read so far; `draws` is the sequence of those
values after the reseeding. -/
def InitializeThetas (cf : CollaborativeFilter) (features : Int) (draws : Nat → ℚ) :
    Option CollaborativeFilter := do
  let cf := { cf with Features := features }
  let st ← forLoop (fun j (st : Mat × Nat) =>
      if features < 0 then none
      else do
        let itemsTheta ← setAt st.1 j (List.replicate features.toNat 0)
        forLoop (fun i (st : Mat × Nat) => do
            let row ← st.1[j]?
            if draws st.2 > 0.5 then do
              let row ← setAt row i (draws (st.2 + 1))
              let itemsTheta ← setAt st.1 j row
              pure (itemsTheta, st.2 + 2)
            else do
              let row ← setAt row i (0 - draws (st.2 + 1))
              let itemsTheta ← setAt st.1 j row
              pure (itemsTheta, st.2 + 2))
          features.toNat (itemsTheta, st.2))
    cf.Ratings.length (List.replicate cf.Ratings.length [], 0)
  let cf := { cf with ItemsTheta := st.1 }
  let r0 ← cf.Ratings[0]?
  let st ← forLoop (fun j (st : Mat × Nat) =>
      if features < 0 then none
      else do
        let theta ← setAt st.1 j (List.replicate features.toNat 0)
        forLoop (fun i (st : Mat × Nat) => do
            let row ← st.1[j]?
            if draws st.2 > 0.5 then do
              let row ← setAt row i (draws (st.2 + 1))
              let theta ← setAt st.1 j row
              pure (theta, st.2 + 2)
            else do
              let row ← setAt row i (0 - draws (st.2 + 1))
              let theta ← setAt st.1 j row
              pure (theta, st.2 + 2))
          features.toNat (theta, st.2))
    r0.length (List.replicate r0.length [], st.2)
  pure { cf with Theta := st.1 }

/-- A matrix with `r` rows, each of `c` entries. -/
def IsMat (A : Mat) (r c : Nat) : Prop :=
  A.length = r ∧ ∀ row ∈ A, row.length = c

/-- Entry `(i, j)` of a matrix (`0` where the matrix has no such entry). -/
def ent (A : Mat) (i j : Nat) : ℚ := (at2 A i j).getD 0

/-- The observed columns of row `i` among the first `w`: those whose mask entry is `1`. -/
def observedCols (M : Mat) (i w : Nat) : Finset Nat :=
  (Finset.range w).filter fun j => at2 M i j = some 1

/-- The mean of the observed entries of row `i`: their sum divided by their number. -/
def rowMean (R M : Mat) (i w : Nat) : ℚ :=
  (∑ j in observedCols M i w, ent R i j) / ((observedCols M i w).card : ℚ)

/-- The `r × c` matrix whose entry `(i, j)` is `g i j`. -/
def matOf (r c : Nat) (g : Nat → Nat → ℚ) : Mat :=
  (List.range r).map fun i => (List.range c).map fun j => g i j

/-- Shape consistency of the four matrices the cost function reads: `ItemsTheta` is
`m × f`, `Theta` is `n × f`, `Ratings` and `AvailableRatings` are `m × n`. -/
def Shaped (cf : CollaborativeFilter) (m n f : Nat) : Prop :=
  IsMat cf.ItemsTheta m f ∧ IsMat cf.Theta n f ∧
    IsMat cf.Ratings m n ∧ IsMat cf.AvailableRatings m n

/-- The masked residual `E = (P · Qᵗ − R) ⊙ M` of the spec, at `(i, j)`. -/
def residual (cf : CollaborativeFilter) (f i j : Nat) : ℚ :=
  (∑ k in Finset.range f, ent cf.ItemsTheta i k * ent cf.Theta j k - ent cf.Ratings i j)
    * ent cf.AvailableRatings i j

/-- The cost of the spec: `J = (1/2) Σ E_ij² + (λ/2) Σ Q_ij² + (λ/2) Σ P_ij²`. -/
def costSpec (cf : CollaborativeFilter) (m n f : Nat) (lambda : ℚ) : ℚ :=
  (∑ i in Finset.range m, ∑ j in Finset.range n, residual cf f i j ^ 2) / 2
    + lambda / 2 * (∑ j in Finset.range n, ∑ k in Finset.range f, ent cf.Theta j k ^ 2)
    + lambda / 2 * (∑ i in Finset.range m, ∑ k in Finset.range f, ent cf.ItemsTheta i k ^ 2)

/-- The gradient of the spec for the item factors: `gradP = E · Q + λ·P`, at `(i, k)`. -/
def gradPSpec (cf : CollaborativeFilter) (n f : Nat) (lambda : ℚ) (i k : Nat) : ℚ :=
  (∑ j in Finset.range n, residual cf f i j * ent cf.Theta j k)
    + lambda * ent cf.ItemsTheta i k

/-- The gradient of the spec for the user factors: `gradQ = Eᵗ · P + λ·Q`, at `(j, k)`. -/
def gradQSpec (cf : CollaborativeFilter) (m f : Nat) (lambda : ℚ) (j k : Nat) : ℚ :=
  (∑ i in Finset.range m, residual cf f i j * ent cf.ItemsTheta i k)
    + lambda * ent cf.Theta j k

/-- The matrix `A` with `h` added to its entry `(a, b)`: the step `θ + h·e` of a finite
difference in the single entry `(a, b)`. -/
def bump (A : Mat) (a b : Nat) (h : ℚ) : Mat :=
  A.set a ((A.getD a []).set b (ent A a b + h))

instance (A : Mat) (r c : Nat) : Decidable (IsMat A r c) := by
  unfold IsMat
  infer_instance

instance (cf : CollaborativeFilter) (m n f : Nat) : Decidable (Shaped cf m n f) := by
  unfold Shaped
  infer_instance

/-- The filter of the running example: two items, two users, two features. -/
def exCF : CollaborativeFilter :=
  { Ratings := [[5, 0], [0, 4]], AvailableRatings := [[1, 0], [0, 1]],
    ItemsTheta := [[1, 2], [3, 4]], Theta := [[5, 6], [7, 8]],
    Means := [], Features := 2, Predictions := [] }

/-- A filter whose mask holds an entry other than `0` and `1`: one item, two users, one
feature, `P · Qᵗ = [[1, 1]]`. -/
def maskTwoCF : CollaborativeFilter :=
  { Ratings := [[1, 0]], AvailableRatings := [[1, 2]],
    ItemsTheta := [[1]], Theta := [[1], [1]],
    Means := [], Features := 1, Predictions := [] }

/-- Every entry of the matrix lies strictly between `-1` and `1`. -/
def InUnit (A : Mat) : Prop := ∀ row ∈ A, ∀ x ∈ row, -1 < x ∧ x < 1

/-- A call of one of the four methods that change the filter. -/
inductive Call where
  | calcMeans
  | normalize
  | initializeThetas (features : Int) (draws : Nat → ℚ)
  | addUser (votes : Int → Option ℚ) (draws : Nat → ℚ)

/-- The filter after a call (`none` when the call panics). -/
def Call.run : Call → CollaborativeFilter → Option CollaborativeFilter
  | .calcMeans, cf => CalcMeans cf
  | .normalize, cf => (Normalize cf).map fun r => r.2
  | .initializeThetas features draws, cf => InitializeThetas cf features draws
  | .addUser votes draws, cf => AddUser cf votes draws

/-- The filter after a sequence of calls. -/
def runCalls : List Call → CollaborativeFilter → Option CollaborativeFilter
  | [], cf => some cf
  | c :: cs, cf => (c.run cf).bind (runCalls cs)

/-- The calls that compute the means when they are not cached. -/
def Call.computesMeans : Call → Bool
  | .calcMeans => true
  | .normalize => true
  | _ => false

/-- The calls of `AddUser`. -/
def Call.isAddUser : Call → Bool
  | .addUser _ _ => true
  | _ => false

/-- No call of `AddUser` comes after a call of `CalcMeans` or `Normalize`. -/
def addUserFirst : List Call → Bool
  | [] => true
  | c :: cs =>
    if c.computesMeans then cs.all (fun c => !c.isAddUser) else addUserFirst cs

/-- The votes `{0: 3.0}` of the running example. -/
def exVotes : Int → Option ℚ := fun k => if k = 0 then some 3 else none

/-- The cached means are the means of the current ratings: entry `i` of `Means` is the
mean of the observed entries of row `i`. -/
def MeansCurrent (cf : CollaborativeFilter) (m w : Nat) : Prop :=
  ∀ i, i < m → cf.Means[i]? = some (rowMean cf.Ratings cf.AvailableRatings i w)

/-- The running example with its means already cached. -/
def exMeansCF : CollaborativeFilter := { exCF with Means := [5, 4] }

/-- A filter whose second item has no observed rating. -/
def degenerateCF : CollaborativeFilter :=
  { Ratings := [[5, 0], [0, 4]], AvailableRatings := [[1, 0], [0, 0]],
    ItemsTheta := [[1, 2], [3, 4]], Theta := [[5, 6], [7, 8]],
    Means := [], Features := 2, Predictions := [] }

/-- The filter `NewCollFilterFromCsv` returns when it is given the four files of the
running example: the loader fills the four matrices and leaves `Features` at `0`. -/
def loadedCF : CollaborativeFilter :=
  { Ratings := [[5, 0], [0, 4]], AvailableRatings := [[1, 0], [0, 1]],
    ItemsTheta := [[1, 2], [3, 4]], Theta := [[5, 6], [7, 8]],
    Means := [], Features := 0, Predictions := [] }

/-- The filter `loadedCF` after `CalcMeans` and then `AddUser` with the votes `{0: 3.0}`:
the means are those computed before the new column. -/
def staleCF : CollaborativeFilter :=
  { loadedCF with Ratings := [[5, 0, 3], [0, 4, 0]],
                  AvailableRatings := [[1, 0, 1], [0, 1, 0]],
                  Theta := [[5, 6], [7, 8], []],
                  Means := [5, 4] }

/-- The filter `loadedCF` after `AddUser` with the votes `{0: 3.0}` and then `CalcMeans`:
the means include the new column. -/
def currentCF : CollaborativeFilter :=
  { loadedCF with Ratings := [[5, 0, 3], [0, 4, 0]],
                  AvailableRatings := [[1, 0, 1], [0, 1, 0]],
                  Theta := [[5, 6], [7, 8], []],
                  Means := [4, 4] }

/-- A filter with two observed ratings, `5` and `3`, in its first row and no means
cached. -/
def twoVotesCF : CollaborativeFilter := { currentCF with Means := [] }

/-! ## Loops -/

theorem forLoop_succ {σ : Type} (body : Nat → σ → Option σ) (n : Nat) (s : σ) :
    forLoop body (n + 1) s = (forLoop body n s).bind (body n) := rfl

/-- Invariant rule for counted loops: an invariant that holds on entry and is carried by
every iteration, each of which terminates normally, holds on exit, and the loop terminates
normally. -/
theorem forLoop_inv {σ : Type} (body : Nat → σ → Option σ) (inv : Nat → σ → Prop)
    (n : Nat) (s : σ) (h0 : inv 0 s)
    (hstep : ∀ i, i < n → ∀ t, inv i t → ∃ t', body i t = some t' ∧ inv (i + 1) t') :
    ∃ s', forLoop body n s = some s' ∧ inv n s' := by
  induction n with
  | zero => exact ⟨s, rfl, h0⟩
  | succ k ih =>
    obtain ⟨t, ht, hinv⟩ := ih (fun i hi => hstep i (Nat.lt_succ_of_lt hi))
    obtain ⟨t', ht', hinv'⟩ := hstep k (Nat.lt_succ_self k) t hinv
    exact ⟨t', by rw [forLoop_succ, ht, Option.some_bind, ht'], hinv'⟩

theorem IsMat.row {A : Mat} {r c i : Nat} (h : IsMat A r c) (hi : i < r) :
    ∃ row, A[i]? = some row ∧ row.length = c := by
  have hi' : i < A.length := by rw [h.1]; exact hi
  exact ⟨A[i], List.getElem?_eq_getElem hi', h.2 _ (List.getElem_mem hi')⟩

theorem IsMat.at2_isSome {A : Mat} {r c i j : Nat} (h : IsMat A r c) (hi : i < r)
    (hj : j < c) : ∃ v, at2 A i j = some v := by
  obtain ⟨row, hrow, hlen⟩ := h.row hi
  have hj' : j < row.length := by rw [hlen]; exact hj
  exact ⟨row[j], by simp [at2, hrow, List.getElem?_eq_getElem hj']⟩

/-- The inner loop of the codec: `values[idx j] = get j` for `j < f`, where the indices
`idx j = off + j` are consecutive. -/
theorem fill_row (get : Nat → Option ℚ) (idx : Nat → Nat) (off f : Nat) (values : List ℚ)
    (hidx : ∀ j, idx j = off + j) (hget : ∀ j, j < f → ∃ v, get j = some v)
    (hlen : off + f ≤ values.length) :
    ∃ values', forLoop (fun j values => do
        let v ← get j
        setAt values (idx j) v) f values = some values' ∧
      values'.length = values.length ∧
      (∀ j, j < f → values'[off + j]? = get j) ∧
      (∀ k, k < off ∨ off + f ≤ k → values'[k]? = values[k]?) := by
  have key := forLoop_inv (fun j values => do
        let v ← get j
        setAt values (idx j) v)
    (fun n (t : List ℚ) => t.length = values.length ∧
      (∀ j, j < n → t[off + j]? = get j) ∧
      (∀ k, k < off ∨ off + n ≤ k → t[k]? = values[k]?)) f values
    ⟨rfl, fun j hj => absurd hj (Nat.not_lt_zero j), fun _ _ => rfl⟩
    (by
      intro i hi t ⟨hl, hdone, hrest⟩
      obtain ⟨v, hv⟩ := hget i hi
      have hlt : off + i < t.length := by omega
      refine ⟨t.set (off + i) v, ?_, ?_, ?_, ?_⟩
      · simp [hv, hidx, setAt, hlt]
      · simp [hl]
      · intro j hj
        by_cases hji : j = i
        · subst hji
          rw [List.getElem?_set_self hlt, hv]
        · rw [List.getElem?_set_ne (by omega)]
          exact hdone j (by omega)
      · intro k hk
        rw [List.getElem?_set_ne (by omega)]
        exact hrest k (by omega))
  obtain ⟨s', hs', h1, h2, h3⟩ := key
  exact ⟨s', hs', h1, h2, h3⟩

theorem block_index_lt {i j m f : Nat} (hi : i < m) (hj : j < f) : i * f + j < m * f := by
  have h1 : (i + 1) * f ≤ m * f := Nat.mul_le_mul_right f hi
  have h2 : (i + 1) * f = i * f + f := by ring
  omega

/-- The outer loop of `rollThetasGrad`: a block of `m` rows of `f` entries written
row-major from position `base` on. -/
theorem fill_block (get : Nat → Nat → Option ℚ) (idx : Nat → Nat → Nat) (base m f : Nat)
    (values : List ℚ) (hidx : ∀ i j, idx i j = base + i * f + j)
    (hget : ∀ i j, i < m → j < f → ∃ v, get i j = some v)
    (hlen : base + m * f ≤ values.length) :
    ∃ values', forLoop (fun i values =>
        forLoop (fun j values => do
          let v ← get i j
          setAt values (idx i j) v) f values) m values = some values' ∧
      values'.length = values.length ∧
      (∀ i j, i < m → j < f → values'[base + i * f + j]? = get i j) ∧
      (∀ k, k < base ∨ base + m * f ≤ k → values'[k]? = values[k]?) := by
  have key := forLoop_inv (fun i values =>
        forLoop (fun j values => do
          let v ← get i j
          setAt values (idx i j) v) f values)
    (fun n (t : List ℚ) => t.length = values.length ∧
      (∀ i j, i < n → j < f → t[base + i * f + j]? = get i j) ∧
      (∀ k, k < base ∨ base + n * f ≤ k → t[k]? = values[k]?)) m values
    ⟨rfl, fun i _ hi => absurd hi (Nat.not_lt_zero i), fun _ _ => rfl⟩
    (by
      intro i hi t ⟨hl, hdone, hrest⟩
      have hb : i * f + f ≤ m * f := by
        have h1 : (i + 1) * f ≤ m * f := Nat.mul_le_mul_right f hi
        have h2 : (i + 1) * f = i * f + f := by ring
        omega
      obtain ⟨t', ht', hl', hrow, hother⟩ :=
        fill_row (get i) (idx i) (base + i * f) f t (fun j => hidx i j)
          (fun j hj => hget i j hi hj) (by omega)
      refine ⟨t', ht', by omega, ?_, ?_⟩
      · intro a b ha hb'
        by_cases hai : a = i
        · subst hai
          exact hrow b hb'
        · have hlt : a * f + b < i * f := block_index_lt (by omega) hb'
          rw [hother _ (Or.inl (by omega))]
          exact hdone a b (by omega) hb'
      · intro k hk
        have h2 : (i + 1) * f = i * f + f := by ring
        rw [hother k (by omega)]
        exact hrest k (by omega))
  obtain ⟨s', hs', h1, h2, h3⟩ := key
  exact ⟨s', hs', h1, h2, h3⟩

/-- What `rollThetasGrad` computes on a pair of matrices of the filter's shapes. -/
theorem roll_spec (cf : CollaborativeFilter) (P Q : Mat) (m n f : Nat)
    (hI : IsMat cf.ItemsTheta m f) (hT : IsMat cf.Theta n f) (hm : 1 ≤ m) (hn : 1 ≤ n)
    (hP : IsMat P m f) (hQ : IsMat Q n f) :
    ∃ values, rollThetasGrad cf [P, Q] = some [values] ∧
      values.length = m * f + n * f ∧
      (∀ i j, i < m → j < f → values[i * f + j]? = at2 P i j) ∧
      (∀ i j, i < n → j < f → values[m * f + i * f + j]? = at2 Q i j) := by
  obtain ⟨it0, hit0, hit0len⟩ := hI.row (i := 0) (by omega)
  obtain ⟨t0, ht0, ht0len⟩ := hT.row (i := 0) (by omega)
  have hIl := hI.1
  have hTl := hT.1
  obtain ⟨v1, hv1, hl1, hent1, -⟩ :=
    fill_block (fun i j => at3 [P, Q] 0 i j) (fun i j => i * f + j) 0 m f
      (List.replicate (m * f + n * f) 0) (by intro i j; simp)
      (by intro i j hi hj; simpa [at3] using hP.at2_isSome hi hj) (by simp)
  obtain ⟨v2, hv2, hl2, hent2, hrest2⟩ :=
    fill_block (fun i j => at3 [P, Q] 1 i j) (fun i j => m * f + i * f + j) (m * f) n f
      v1 (fun _ _ => rfl)
      (by intro i j hi hj; simpa [at3] using hQ.at2_isSome hi hj) (by simp [hl1])
  refine ⟨v2, ?_, ?_, ?_, ?_⟩
  · unfold rollThetasGrad
    rw [hit0, ht0]
    simp only [Option.bind_eq_bind, Option.some_bind, hit0len, ht0len, hIl, hTl]
    simp only [Option.bind_eq_bind] at hv1 hv2
    rw [hv1, Option.some_bind, hv2]
    rfl
  · simp [hl2, hl1]
  · intro i j hi hj
    have hlt := block_index_lt hi hj
    rw [hrest2 _ (Or.inl hlt)]
    have := hent1 i j hi hj
    simpa [at3] using this
  · intro i j hi hj
    have := hent2 i j hi hj
    simpa [at3] using this

/-- The outer loops of `unrollThetasGrad`: row `i` of the result is assigned the freshly
built row `mk i`. -/
theorem build_rows (mk : Nat → Option (List ℚ)) (m : Nat) (r : Mat) (hlen : m ≤ r.length)
    (hmk : ∀ i, i < m → ∃ row, mk i = some row) :
    ∃ r', forLoop (fun i r => (mk i).bind fun row => setAt r i row) m r = some r' ∧
      r'.length = r.length ∧
      (∀ i, i < m → r'[i]? = mk i) ∧
      (∀ k, m ≤ k → r'[k]? = r[k]?) := by
  have key := forLoop_inv (fun i r => (mk i).bind fun row => setAt r i row)
    (fun n (t : Mat) => t.length = r.length ∧
      (∀ i, i < n → t[i]? = mk i) ∧ (∀ k, n ≤ k → t[k]? = r[k]?)) m r
    ⟨rfl, fun i hi => absurd hi (Nat.not_lt_zero i), fun _ _ => rfl⟩
    (by
      intro i hi t ⟨hl, hdone, hrest⟩
      obtain ⟨row, hrow⟩ := hmk i hi
      have hlt : i < t.length := by omega
      refine ⟨t.set i row, ?_, ?_, ?_, ?_⟩
      · simp [hrow, setAt, hlt]
      · simp [hl]
      · intro j hj
        by_cases hji : j = i
        · subst hji
          rw [List.getElem?_set_self hlt, hrow]
        · rw [List.getElem?_set_ne (by omega)]
          exact hdone j (by omega)
      · intro k hk
        rw [List.getElem?_set_ne (by omega)]
        exact hrest k (by omega))
  obtain ⟨s', hs', h1, h2, h3⟩ := key
  exact ⟨s', hs', h1, h2, h3⟩

/-- One row of `unrollThetasGrad`: `f` consecutive entries of `v` from position `base`. -/
theorem cut_row (v : List ℚ) (rest : Mat) (idx : Nat → Nat) (base f : Nat)
    (hidx : ∀ j, idx j = base + j) (hv : base + f ≤ v.length) :
    ∃ row, forLoop (fun j row => (at2 (v :: rest) 0 (idx j)).bind fun a => setAt row j a) f
        (List.replicate f 0) = some row ∧
      row.length = f ∧ ∀ j, j < f → row[j]? = v[base + j]? := by
  obtain ⟨row, hrow, hl, hent, -⟩ :=
    fill_row (fun j => at2 (v :: rest) 0 (idx j)) (fun j => j) 0 f (List.replicate f 0)
      (by intro j; simp)
      (by
        intro j hj
        have : base + j < v.length := by omega
        exact ⟨v[base + j], by simp [at2, hidx, List.getElem?_eq_getElem this]⟩)
      (by simp)
  simp only [Option.bind_eq_bind] at hrow
  refine ⟨row, hrow, by simpa using hl, ?_⟩
  intro j hj
  have := hent j hj
  simpa [at2, hidx] using this

/-- A matrix assembled from rows of one length. -/
theorem isMat_of_rows {A : Mat} {r c : Nat} (hl : A.length = r)
    (hrow : ∀ i, i < r → ∃ row, A[i]? = some row ∧ row.length = c) : IsMat A r c := by
  refine ⟨hl, ?_⟩
  intro row hmem
  obtain ⟨i, hi, rfl⟩ := List.getElem_of_mem hmem
  obtain ⟨row', hr, hc⟩ := hrow i (by omega)
  rw [List.getElem?_eq_getElem hi] at hr
  cases hr
  exact hc

/-- What `unrollThetasGrad` computes on a row that is long enough. -/
theorem unroll_spec (cf : CollaborativeFilter) (v : List ℚ) (rest : Mat) (m n f : Nat)
    (hI : IsMat cf.ItemsTheta m f) (hT : IsMat cf.Theta n f) (hm : 1 ≤ m)
    (hv : m * f + n * f ≤ v.length) :
    ∃ A B, unrollThetasGrad cf (v :: rest) = some [A, B] ∧ IsMat A m f ∧ IsMat B n f ∧
      (∀ i j, i < m → j < f → at2 A i j = v[i * f + j]?) ∧
      (∀ i j, i < n → j < f → at2 B i j = v[m * f + i * f + j]?) := by
  obtain ⟨it0, hit0, hit0len⟩ := hI.row (i := 0) (by omega)
  have hIl := hI.1
  have hTl := hT.1
  have hrowA : ∀ i, i < m → ∃ row,
      forLoop (fun j row => (at2 (v :: rest) 0 (i * f + j)).bind fun a => setAt row j a) f
        (List.replicate f 0) = some row ∧
      row.length = f ∧ ∀ j, j < f → row[j]? = v[i * f + j]? := by
    intro i hi
    have hb : i * f + f ≤ m * f := by
      have h1 : (i + 1) * f ≤ m * f := Nat.mul_le_mul_right f hi
      have h2 : (i + 1) * f = i * f + f := by ring
      omega
    exact cut_row v rest (fun j => i * f + j) (i * f) f (fun _ => rfl) (by omega)
  have hrowB : ∀ i, i < n → ∃ row,
      forLoop (fun j row => (at2 (v :: rest) 0 (m * f + i * f + j)).bind
        fun a => setAt row j a) f (List.replicate f 0) = some row ∧
      row.length = f ∧ ∀ j, j < f → row[j]? = v[m * f + i * f + j]? := by
    intro i hi
    have hb : i * f + f ≤ n * f := by
      have h1 : (i + 1) * f ≤ n * f := Nat.mul_le_mul_right f hi
      have h2 : (i + 1) * f = i * f + f := by ring
      omega
    exact cut_row v rest (fun j => m * f + i * f + j) (m * f + i * f) f (fun _ => rfl)
      (by omega)
  obtain ⟨A, hA, hAl, hAent, -⟩ :=
    build_rows (fun i => forLoop (fun j row =>
        (at2 (v :: rest) 0 (i * f + j)).bind fun a => setAt row j a) f (List.replicate f 0))
      m (List.replicate m []) (by simp)
      (fun i hi => (hrowA i hi).imp fun _ h => h.1)
  obtain ⟨B, hB, hBl, hBent, -⟩ :=
    build_rows (fun i => forLoop (fun j row =>
        (at2 (v :: rest) 0 (m * f + i * f + j)).bind fun a => setAt row j a) f
        (List.replicate f 0))
      n (List.replicate n []) (by simp)
      (fun i hi => (hrowB i hi).imp fun _ h => h.1)
  have hAl' : A.length = m := by simpa using hAl
  have hBl' : B.length = n := by simpa using hBl
  refine ⟨A, B, ?_, ?_, ?_, ?_, ?_⟩
  · unfold unrollThetasGrad
    by_cases hn : n = 0
    · subst hn
      simp only [Option.bind_eq_bind, hit0, Option.some_bind, hit0len, hIl, hTl]
      simp only [forLoop] at hB
      cases hB
      rw [hA]
      rfl
    · obtain ⟨t0, ht0, ht0len⟩ := hT.row (i := 0) (by omega)
      simp only [Option.bind_eq_bind, hit0, ht0, Option.some_bind, hit0len, ht0len, hIl, hTl]
      rw [hA, Option.some_bind, hB]
      rfl
  · refine isMat_of_rows hAl' fun i hi => ?_
    obtain ⟨row, hrow, hlen, -⟩ := hrowA i hi
    exact ⟨row, by rw [hAent i hi, hrow], hlen⟩
  · refine isMat_of_rows hBl' fun i hi => ?_
    obtain ⟨row, hrow, hlen, -⟩ := hrowB i hi
    exact ⟨row, by rw [hBent i hi, hrow], hlen⟩
  · intro i j hi hj
    obtain ⟨row, hrow, -, hent⟩ := hrowA i hi
    have h := hAent i hi
    rw [hrow] at h
    simp [at2, h, hent j hj]
  · intro i j hi hj
    obtain ⟨row, hrow, -, hent⟩ := hrowB i hi
    have h := hBent i hi
    rw [hrow] at h
    simp [at2, h, hent j hj]

/-- Every position below `m * f` is position `j` of row `i` for some `i < m`, `j < f`. -/
theorem block_index_decomp {k m f : Nat} (hk : k < m * f) :
    ∃ i j, i < m ∧ j < f ∧ k = i * f + j := by
  have hf : 0 < f := by
    rcases Nat.eq_zero_or_pos f with h | h
    · subst h; simp at hk
    · exact h
  refine ⟨k / f, k % f, (Nat.div_lt_iff_lt_mul hf).2 hk, Nat.mod_lt k hf, ?_⟩
  have := Nat.div_add_mod k f
  rw [Nat.mul_comm] at this
  exact this.symm

/-- Two flat vectors of length `m * f + n * f` that agree on both blocks are equal. -/
theorem list_eq_of_blocks {u w : List ℚ} {m n f : Nat} (hu : u.length = m * f + n * f)
    (hw : w.length = m * f + n * f)
    (h1 : ∀ i j, i < m → j < f → u[i * f + j]? = w[i * f + j]?)
    (h2 : ∀ i j, i < n → j < f → u[m * f + i * f + j]? = w[m * f + i * f + j]?) :
    u = w := by
  apply List.ext_getElem?
  intro k
  by_cases hk : k < m * f
  · obtain ⟨i, j, hi, hj, rfl⟩ := block_index_decomp hk
    exact h1 i j hi hj
  · by_cases hk2 : k < m * f + n * f
    · obtain ⟨i, j, hi, hj, hij⟩ := block_index_decomp (k := k - m * f) (m := n) (f := f)
        (by omega)
      have hk' : k = m * f + i * f + j := by omega
      rw [hk']
      exact h2 i j hi hj
    · rw [List.getElem?_eq_none (by omega), List.getElem?_eq_none (by omega)]

/-- Two matrices of one shape with the same entries are equal. -/
theorem mat_ext {A B : Mat} {r c : Nat} (hA : IsMat A r c) (hB : IsMat B r c)
    (h : ∀ i j, i < r → j < c → at2 A i j = at2 B i j) : A = B := by
  apply List.ext_getElem?
  intro i
  by_cases hi : i < r
  · obtain ⟨ra, hra, hla⟩ := hA.row hi
    obtain ⟨rb, hrb, hlb⟩ := hB.row hi
    rw [hra, hrb]
    congr 1
    apply List.ext_getElem?
    intro j
    by_cases hj : j < c
    · have := h i j hi hj
      simpa [at2, hra, hrb] using this
    · rw [List.getElem?_eq_none (by omega), List.getElem?_eq_none (by omega)]
  · rw [List.getElem?_eq_none (by have := hA.1; omega),
      List.getElem?_eq_none (by have := hB.1; omega)]

theorem IsMat.tail {row : List ℚ} {A : Mat} {r c : Nat} (h : IsMat (row :: A) (r + 1) c) :
    IsMat A r c :=
  ⟨by have := h.1; simpa using this, fun x hx => h.2 x (List.mem_cons_of_mem _ hx)⟩

theorem IsMat.length_flatten {A : Mat} {r c : Nat} (h : IsMat A r c) :
    A.flatten.length = r * c := by
  induction A generalizing r with
  | nil =>
    have := h.1
    simp at this
    subst this
    simp
  | cons row A ih =>
    obtain ⟨r', rfl⟩ : ∃ r', r = r' + 1 := ⟨A.length, by have := h.1; simpa using this.symm⟩
    have hrow : row.length = c := h.2 row (List.mem_cons_self _ _)
    rw [List.flatten_cons, List.length_append, ih h.tail, hrow]
    ring

/-- Row-major layout: entry `(i, j)` of a matrix with rows of length `c` is entry
`i * c + j` of the concatenation of its rows. -/
theorem IsMat.flatten_getElem? {A : Mat} {r c : Nat} (h : IsMat A r c) {i j : Nat}
    (hi : i < r) (hj : j < c) : A.flatten[i * c + j]? = at2 A i j := by
  induction A generalizing r i with
  | nil =>
    have := h.1
    simp at this
    omega
  | cons row A ih =>
    obtain ⟨r', rfl⟩ : ∃ r', r = r' + 1 := ⟨A.length, by have := h.1; simpa using this.symm⟩
    have hrow : row.length = c := h.2 row (List.mem_cons_self _ _)
    cases i with
    | zero =>
      rw [List.flatten_cons, List.getElem?_append_left (by omega)]
      simp [at2]
    | succ i' =>
      have hidx : (i' + 1) * c + j - row.length = i' * c + j := by
        rw [hrow]
        have : (i' + 1) * c = i' * c + c := by ring
        omega
      rw [List.flatten_cons, List.getElem?_append_right (by
        rw [hrow]
        have : (i' + 1) * c = i' * c + c := by ring
        omega), hidx, ih h.tail (by omega)]
      simp [at2]

/-! ## Parameter codec -/

/-- C1: for a filter whose `ItemsTheta` is `m × f` and whose `Theta` is `n × f`
(`m, n ≥ 1`) and every pair `(P, Q)` of matrices of those shapes, `rollThetasGrad`
returns a packed value on which `unrollThetasGrad` returns exactly `[P, Q]`. -/
theorem unrollThetasGrad_rollThetasGrad (cf : CollaborativeFilter) (P Q : Mat)
    (m n f : Nat) (hI : IsMat cf.ItemsTheta m f) (hT : IsMat cf.Theta n f)
    (hm : 1 ≤ m) (hn : 1 ≤ n) (hP : IsMat P m f) (hQ : IsMat Q n f) :
    ∃ packed, rollThetasGrad cf [P, Q] = some packed ∧
      unrollThetasGrad cf packed = some [P, Q] := by
  obtain ⟨values, hroll, hlen, hp, hq⟩ := roll_spec cf P Q m n f hI hT hm hn hP hQ
  obtain ⟨A, B, hun, hA, hB, ha, hb⟩ :=
    unroll_spec cf values [] m n f hI hT hm (by omega)
  refine ⟨[values], hroll, ?_⟩
  have hAP : A = P := mat_ext hA hP fun i j hi hj => by rw [ha i j hi hj, hp i j hi hj]
  have hBQ : B = Q := mat_ext hB hQ fun i j hi hj => by rw [hb i j hi hj, hq i j hi hj]
  rw [hun, hAP, hBQ]

/-- C1, on the running example with `x = getTheta()`. -/
theorem unrollThetasGrad_rollThetasGrad_witness :
    IsMat exCF.ItemsTheta 2 2 ∧ IsMat exCF.Theta 2 2 ∧
    ∃ packed, rollThetasGrad exCF (getTheta exCF) = some packed ∧
      unrollThetasGrad exCF packed = some (getTheta exCF) :=
  ⟨by decide, by decide,
    unrollThetasGrad_rollThetasGrad exCF exCF.ItemsTheta exCF.Theta 2 2 2
      (by decide) (by decide) (by decide) (by decide) (by decide) (by decide)⟩

/-- C2: for a filter whose `ItemsTheta` is `m × f` and whose `Theta` is `n × f`
(`m, n ≥ 1`) and every flat vector `v` of length `m * f + n * f`, `unrollThetasGrad [v]`
returns a pair of matrices on which `rollThetasGrad` returns `[v]` again. -/
theorem rollThetasGrad_unrollThetasGrad (cf : CollaborativeFilter) (v : List ℚ)
    (m n f : Nat) (hI : IsMat cf.ItemsTheta m f) (hT : IsMat cf.Theta n f)
    (hm : 1 ≤ m) (hn : 1 ≤ n) (hv : v.length = m * f + n * f) :
    ∃ thetas, unrollThetasGrad cf [v] = some thetas ∧
      rollThetasGrad cf thetas = some [v] := by
  obtain ⟨A, B, hun, hA, hB, ha, hb⟩ :=
    unroll_spec cf v [] m n f hI hT hm (by omega)
  obtain ⟨values, hroll, hlen, hp, hq⟩ := roll_spec cf A B m n f hI hT hm hn hA hB
  refine ⟨[A, B], hun, ?_⟩
  have : values = v := list_eq_of_blocks hlen hv
    (fun i j hi hj => by rw [hp i j hi hj, ha i j hi hj])
    (fun i j hi hj => by rw [hq i j hi hj, hb i j hi hj])
  rw [hroll, this]

/-- C2, on the running example with the flat vector `1, ..., 8`. -/
theorem rollThetasGrad_unrollThetasGrad_witness :
    IsMat exCF.ItemsTheta 2 2 ∧ IsMat exCF.Theta 2 2 ∧
    ∃ thetas, unrollThetasGrad exCF [[1, 2, 3, 4, 5, 6, 7, 8]] = some thetas ∧
      rollThetasGrad exCF thetas = some [[1, 2, 3, 4, 5, 6, 7, 8]] :=
  ⟨by decide, by decide,
    rollThetasGrad_unrollThetasGrad exCF [1, 2, 3, 4, 5, 6, 7, 8] 2 2 2
      (by decide) (by decide) (by decide) (by decide) (by decide)⟩

/-- C3: for a filter whose `ItemsTheta` is `m × f` and whose `Theta` is `n × f`
(`m, n ≥ 1`) and every pair `(P, Q)` of those shapes, `rollThetasGrad` returns a single row
of length `m * f + n * f`, which is the rows of `P` followed by the rows of `Q`: its entry
`i * f + j` is `P[i][j]` and its entry `m * f + i * f + j` is `Q[i][j]`. -/
theorem rollThetasGrad_layout (cf : CollaborativeFilter) (P Q : Mat)
    (m n f : Nat) (hI : IsMat cf.ItemsTheta m f) (hT : IsMat cf.Theta n f)
    (hm : 1 ≤ m) (hn : 1 ≤ n) (hP : IsMat P m f) (hQ : IsMat Q n f) :
    ∃ values, rollThetasGrad cf [P, Q] = some [values] ∧
      values.length = m * f + n * f ∧
      values = P.flatten ++ Q.flatten ∧
      (∀ i j, i < m → j < f →
        ∃ p, at2 P i j = some p ∧ values[i * f + j]? = some p) ∧
      (∀ i j, i < n → j < f →
        ∃ q, at2 Q i j = some q ∧ values[m * f + i * f + j]? = some q) := by
  obtain ⟨values, hroll, hlen, hp, hq⟩ := roll_spec cf P Q m n f hI hT hm hn hP hQ
  refine ⟨values, hroll, hlen, ?_, ?_, ?_⟩
  · refine list_eq_of_blocks hlen
      (by rw [List.length_append, hP.length_flatten, hQ.length_flatten]) ?_ ?_
    · intro i j hi hj
      have hlt := block_index_lt hi hj
      rw [hp i j hi hj, List.getElem?_append_left (by rw [hP.length_flatten]; exact hlt),
        hP.flatten_getElem? hi hj]
    · intro i j hi hj
      rw [hq i j hi hj, List.getElem?_append_right (by rw [hP.length_flatten]; omega),
        hP.length_flatten]
      have : m * f + i * f + j - m * f = i * f + j := by omega
      rw [this, hQ.flatten_getElem? hi hj]
  · intro i j hi hj
    obtain ⟨p, hpv⟩ := hP.at2_isSome hi hj
    exact ⟨p, hpv, by rw [hp i j hi hj, hpv]⟩
  · intro i j hi hj
    obtain ⟨q, hqv⟩ := hQ.at2_isSome hi hj
    exact ⟨q, hqv, by rw [hq i j hi hj, hqv]⟩

/-- C3, on the running example: the packed row is `1, 2, 3, 4` then `5, 6, 7, 8`. -/
theorem rollThetasGrad_layout_witness :
    IsMat exCF.ItemsTheta 2 2 ∧ IsMat exCF.Theta 2 2 ∧
    rollThetasGrad exCF [[[1, 2], [3, 4]], [[5, 6], [7, 8]]]
      = some [[1, 2, 3, 4, 5, 6, 7, 8]] := by
  refine ⟨by decide, by decide, ?_⟩
  obtain ⟨values, hroll, -, hval, -⟩ :=
    rollThetasGrad_layout exCF [[1, 2], [3, 4]] [[5, 6], [7, 8]] 2 2 2
      (by decide) (by decide) (by decide) (by decide) (by decide) (by decide)
  rw [hroll, hval]
  rfl

/-! ## Rating store -/

/-- Sequencing rule: a loop followed by a continuation. -/
theorem bind_forLoop {σ ρ : Type} (body : Nat → σ → Option σ) (n : Nat) (s : σ)
    (k : σ → Option ρ) (inv : Nat → σ → Prop) (Q : ρ → Prop) (h0 : inv 0 s)
    (hstep : ∀ i, i < n → ∀ t, inv i t → ∃ t', body i t = some t' ∧ inv (i + 1) t')
    (hk : ∀ s', inv n s' → ∃ r, k s' = some r ∧ Q r) :
    ∃ r, (forLoop body n s >>= k) = some r ∧ Q r := by
  obtain ⟨s', hs', hinv⟩ := forLoop_inv body inv n s h0 hstep
  obtain ⟨r, hr, hq⟩ := hk s' hinv
  exact ⟨r, by rw [hs']; exact hr, hq⟩

theorem IsMat.at2_eq {A : Mat} {r c i j : Nat} (h : IsMat A r c) (hi : i < r)
    (hj : j < c) : at2 A i j = some (ent A i j) := by
  obtain ⟨v, hv⟩ := h.at2_isSome hi hj
  simp [ent, hv]

/-- The inner loop of `CalcMeans` on row `i`: the observed ratings are added to `means[i]`
and counted in `scores`. -/
theorem calcMeans_row (R M : Mat) (m w i : Nat) (hR : IsMat R m w) (hM : IsMat M m w)
    (hi : i < m) (means : List ℚ) (hlen : means.length = m) (h0 : means[i]? = some 0) :
    ∃ st, forLoop (fun j (st : List ℚ × ℚ) => do
          let a ← at2 M i j
          if a = 1 then do
            let r ← at2 R i j
            let mi ← st.1[i]?
            let means ← setAt st.1 i (mi + r)
            pure (means, st.2 + 1)
          else pure st) w (means, 0) = some st ∧
      st.1.length = m ∧
      st.1[i]? = some (∑ j in observedCols M i w, ent R i j) ∧
      (∀ k, k ≠ i → st.1[k]? = means[k]?) ∧
      st.2 = ((observedCols M i w).card : ℚ) := by
  have key := forLoop_inv (fun j (st : List ℚ × ℚ) => do
          let a ← at2 M i j
          if a = 1 then do
            let r ← at2 R i j
            let mi ← st.1[i]?
            let means ← setAt st.1 i (mi + r)
            pure (means, st.2 + 1)
          else pure st)
    (fun n (st : List ℚ × ℚ) => st.1.length = m ∧
      st.1[i]? = some (∑ j in observedCols M i n, ent R i j) ∧
      (∀ k, k ≠ i → st.1[k]? = means[k]?) ∧
      st.2 = ((observedCols M i n).card : ℚ)) w (means, 0)
    ⟨hlen, by simpa [observedCols] using h0, fun _ _ => rfl, by simp [observedCols]⟩
    (by
      intro j hj st ⟨hl, hsum, hrest, hcnt⟩
      have hRe := hR.at2_eq hi hj
      have hMe := hM.at2_eq hi hj
      have hlt : i < st.1.length := by omega
      by_cases hobs : ent M i j = 1
      · have hmem : at2 M i j = some 1 := by rw [hMe, hobs]
        have hfil : observedCols M i (j + 1) = insert j (observedCols M i j) := by
          simp [observedCols, Finset.range_succ, Finset.filter_insert, hmem]
        have hnot : j ∉ observedCols M i j := by simp [observedCols]
        refine ⟨(st.1.set i ((∑ j in observedCols M i j, ent R i j) + ent R i j),
          st.2 + 1), ?_, ?_, ?_, ?_, ?_⟩
        · simp [hMe, hobs, hRe, hsum, setAt, hlt]
        · simp [hl]
        · rw [List.getElem?_set_self hlt, hfil, Finset.sum_insert hnot, add_comm]
        · intro k hk
          rw [List.getElem?_set_ne (Ne.symm hk)]
          exact hrest k hk
        · rw [hfil, Finset.card_insert_of_not_mem hnot, hcnt]
          push_cast
          rfl
      · have hmem : ¬ at2 M i j = some 1 := by
          rw [hMe]
          intro h
          exact hobs (Option.some.inj h)
        have hfil : observedCols M i (j + 1) = observedCols M i j := by
          simp [observedCols, Finset.range_succ, Finset.filter_insert, hmem]
        refine ⟨st, ?_, ?_⟩
        · simp [hMe, hobs]
        · beta_reduce
          rw [hfil]
          exact ⟨hl, hsum, hrest, hcnt⟩)
  obtain ⟨st, hst, h1, h2, h3, h4⟩ := key
  exact ⟨st, hst, h1, h2, h3, h4⟩

/-- What `CalcMeans` computes on a non-empty rectangular ratings matrix with a mask of the
same shape: one mean per row, every other field unchanged. -/
theorem calcMeans_spec (cf : CollaborativeFilter) (m w : Nat)
    (hR : IsMat cf.Ratings m w) (hM : IsMat cf.AvailableRatings m w) (hm : 1 ≤ m) :
    ∃ means, CalcMeans cf = some { cf with Means := means } ∧ means.length = m ∧
      ∀ i, i < m → means[i]? = some (rowMean cf.Ratings cf.AvailableRatings i w) := by
  obtain ⟨r0, hr0, hr0len⟩ := hR.row (i := 0) (by omega)
  have hRl := hR.1
  have key := forLoop_inv (fun i means => do
      let (means, scores) ← forLoop (fun j (st : List ℚ × ℚ) => do
          let a ← at2 cf.AvailableRatings i j
          if a = 1 then do
            let r ← at2 cf.Ratings i j
            let mi ← st.1[i]?
            let means ← setAt st.1 i (mi + r)
            pure (means, st.2 + 1)
          else pure st) w (means, 0)
      let mi ← means[i]?
      setAt means i (mi / scores))
    (fun n (t : List ℚ) => t.length = m ∧
      (∀ i, i < n → t[i]? = some (rowMean cf.Ratings cf.AvailableRatings i w)) ∧
      (∀ i, n ≤ i → i < m → t[i]? = some 0)) m (List.replicate m 0)
    ⟨by simp, fun i hi => absurd hi (Nat.not_lt_zero i),
      fun i _ hi => by simp [List.getElem?_replicate, hi]⟩
    (by
      intro i hi t ⟨hl, hdone, hzero⟩
      obtain ⟨st, hst, hsl, hsum, hrest, hcnt⟩ :=
        calcMeans_row cf.Ratings cf.AvailableRatings m w i hR hM hi t hl
          (hzero i (le_refl i) hi)
      have hlt : i < st.1.length := by omega
      refine ⟨st.1.set i (rowMean cf.Ratings cf.AvailableRatings i w), ?_, ?_, ?_, ?_⟩
      · beta_reduce
        rw [hst]
        simp [hsum, setAt, hlt, hcnt, rowMean]
      · simp [hsl]
      · intro a ha
        by_cases hai : a = i
        · subst hai
          rw [List.getElem?_set_self hlt]
        · rw [List.getElem?_set_ne (Ne.symm hai), hrest a hai]
          exact hdone a (by omega)
      · intro a ha ham
        rw [List.getElem?_set_ne (by omega), hrest a (by omega)]
        exact hzero a (by omega) ham)
  obtain ⟨means, hmeans, hl, hdone, -⟩ := key
  refine ⟨means, ?_, hl, hdone⟩
  have hdef : CalcMeans cf = (do
      let r0 ← cf.Ratings[0]?
      let means ← forLoop (fun i means => do
        let (means, scores) ← forLoop (fun j (st : List ℚ × ℚ) => do
            let a ← at2 cf.AvailableRatings i j
            if a = 1 then do
              let r ← at2 cf.Ratings i j
              let mi ← st.1[i]?
              let means ← setAt st.1 i (mi + r)
              pure (means, st.2 + 1)
            else pure st) r0.length (means, 0)
        let mi ← means[i]?
        setAt means i (mi / scores)) cf.Ratings.length (List.replicate cf.Ratings.length 0)
      pure { cf with Means := means }) := rfl
  rw [hdef, hr0]
  simp only [Option.bind_eq_bind, Option.some_bind, hr0len, hRl]
  simp only [Option.bind_eq_bind] at hmeans
  rw [hmeans]
  rfl

/-- The inner loop of `Normalize` on row `i`: an observed entry becomes the rating minus
the mean of the row, every other entry stays `0`. -/
theorem normalize_row (R M : Mat) (means : List ℚ) (m w i : Nat) (hR : IsMat R m w)
    (hM : IsMat M m w) (hi : i < m) (hlen : m ≤ means.length) :
    ∃ row, forLoop (fun j (row : List ℚ) => do
          let a ← at2 M i j
          if a = 1 then do
            let r ← at2 R i j
            let mean ← means[i]?
            setAt row j (r - mean)
          else pure row) w (List.replicate w 0) = some row ∧
      row.length = w ∧
      ∀ j, j < w → row[j]? =
        some (if at2 M i j = some 1 then ent R i j - means.getD i 0 else 0) := by
  obtain ⟨mu, hmean, hmu⟩ : ∃ mu, means[i]? = some mu ∧ means.getD i 0 = mu := by
    have hlt : i < means.length := by omega
    exact ⟨means[i], List.getElem?_eq_getElem hlt,
      by simp [List.getD, List.getElem?_eq_getElem hlt]⟩
  rw [hmu]
  have key := forLoop_inv (fun j (row : List ℚ) => do
          let a ← at2 M i j
          if a = 1 then do
            let r ← at2 R i j
            let mean ← means[i]?
            setAt row j (r - mean)
          else pure row)
    (fun n (row : List ℚ) => row.length = w ∧
      (∀ j, j < n → row[j]? =
        some (if at2 M i j = some 1 then ent R i j - mu else 0)) ∧
      (∀ j, n ≤ j → j < w → row[j]? = some 0)) w (List.replicate w 0)
    ⟨by simp, fun j hj => absurd hj (Nat.not_lt_zero j),
      fun j _ hj => by simp [List.getElem?_replicate, hj]⟩
    (by
      intro j hj row ⟨hl, hdone, hzero⟩
      have hRe := hR.at2_eq hi hj
      have hMe := hM.at2_eq hi hj
      have hlt : j < row.length := by omega
      by_cases hobs : ent M i j = 1
      · have hmem : at2 M i j = some 1 := by rw [hMe, hobs]
        refine ⟨row.set j (ent R i j - mu), ?_, ?_, ?_, ?_⟩
        · simp [hMe, hobs, hRe, hmean, setAt, hlt]
        · simp [hl]
        · intro k hk
          by_cases hkj : k = j
          · subst hkj
            rw [List.getElem?_set_self hlt, if_pos hmem]
          · rw [List.getElem?_set_ne (Ne.symm hkj)]
            exact hdone k (by omega)
        · intro k hk hkw
          rw [List.getElem?_set_ne (by omega)]
          exact hzero k (by omega) hkw
      · have hmem : ¬ at2 M i j = some 1 := by
          rw [hMe]
          intro h
          exact hobs (Option.some.inj h)
        refine ⟨row, ?_, hl, ?_, ?_⟩
        · simp [hMe, hobs]
        · intro k hk
          by_cases hkj : k = j
          · subst hkj
            rw [if_neg hmem]
            exact hzero k (le_refl k) hj
          · exact hdone k (by omega)
        · intro k hk hkw
          exact hzero k (by omega) hkw)
  obtain ⟨row, hrow, hl, hdone, -⟩ := key
  exact ⟨row, hrow, hl, hdone⟩

/-- The two loops of `Normalize`, once the means are there. -/
theorem normalize_rest (cf : CollaborativeFilter) (m w : Nat)
    (hR : IsMat cf.Ratings m w) (hM : IsMat cf.AvailableRatings m w) (hm : 1 ≤ m)
    (hlen : m ≤ cf.Means.length) :
    ∃ N, (do
        let r0 ← cf.Ratings[0]?
        let normRatings ← forLoop (fun i normRatings => do
            let row ← forLoop (fun j (row : List ℚ) => do
                let a ← at2 cf.AvailableRatings i j
                if a = 1 then do
                  let r ← at2 cf.Ratings i j
                  let mean ← cf.Means[i]?
                  setAt row j (r - mean)
                else pure row) r0.length (List.replicate r0.length 0)
            setAt normRatings i row)
          cf.Ratings.length (List.replicate cf.Ratings.length [])
        pure (normRatings, cf)) = some (N, cf) ∧
      IsMat N m w ∧
      ∀ i j, i < m → j < w → at2 N i j =
        some (if at2 cf.AvailableRatings i j = some 1
          then ent cf.Ratings i j - cf.Means.getD i 0 else 0) := by
  obtain ⟨r0, hr0, hr0len⟩ := hR.row (i := 0) (by omega)
  have hRl := hR.1
  have hrows : ∀ i, i < m → ∃ row, forLoop (fun j (row : List ℚ) =>
        (at2 cf.AvailableRatings i j).bind fun a =>
          if a = 1 then
            (at2 cf.Ratings i j).bind fun r =>
              (cf.Means[i]?).bind fun mean => setAt row j (r - mean)
          else pure row) w (List.replicate w 0) = some row ∧
      row.length = w ∧
      ∀ j, j < w → row[j]? =
        some (if at2 cf.AvailableRatings i j = some 1
          then ent cf.Ratings i j - cf.Means.getD i 0 else 0) := by
    intro i hi
    have := normalize_row cf.Ratings cf.AvailableRatings cf.Means m w i hR hM hi hlen
    simpa only [Option.bind_eq_bind] using this
  obtain ⟨N, hN, hNl, hNent, -⟩ :=
    build_rows (fun i => forLoop (fun j (row : List ℚ) =>
        (at2 cf.AvailableRatings i j).bind fun a =>
          if a = 1 then
            (at2 cf.Ratings i j).bind fun r =>
              (cf.Means[i]?).bind fun mean => setAt row j (r - mean)
          else pure row) w (List.replicate w 0))
      m (List.replicate m []) (by simp)
      (fun i hi => (hrows i hi).imp fun _ h => h.1)
  have hNl' : N.length = m := by simpa using hNl
  refine ⟨N, ?_, ?_, ?_⟩
  · rw [hr0]
    simp only [Option.bind_eq_bind, Option.some_bind, hr0len, hRl]
    rw [hN]
    rfl
  · refine isMat_of_rows hNl' fun i hi => ?_
    obtain ⟨row, hrow, hl, -⟩ := hrows i hi
    exact ⟨row, by rw [hNent i hi, hrow], hl⟩
  · intro i j hi hj
    obtain ⟨row, hrow, -, hent⟩ := hrows i hi
    have h := hNent i hi
    rw [hrow] at h
    simp only [at2, h, Option.some_bind]
    exact hent j hj

/-- What `Normalize` returns on a non-empty rectangular ratings matrix with a mask of the
same shape, when the cached means are empty or there is one per row: a matrix of the
shape of the ratings; the filter afterwards differs at most in `Means`. -/
theorem normalize_spec (cf : CollaborativeFilter) (m w : Nat)
    (hR : IsMat cf.Ratings m w) (hM : IsMat cf.AvailableRatings m w) (hm : 1 ≤ m)
    (hMeans : cf.Means = [] ∨ m ≤ cf.Means.length) :
    ∃ N means, Normalize cf = some (N, { cf with Means := means }) ∧
      (cf.Means = [] → ∀ i, i < m →
        means[i]? = some (rowMean cf.Ratings cf.AvailableRatings i w)) ∧
      (cf.Means ≠ [] → means = cf.Means) ∧
      m ≤ means.length ∧
      IsMat N m w ∧
      ∀ i j, i < m → j < w → at2 N i j =
        some (if at2 cf.AvailableRatings i j = some 1
          then ent cf.Ratings i j - means.getD i 0 else 0) := by
  by_cases hempty : cf.Means = []
  · obtain ⟨means, hcalc, hl, hmean⟩ := calcMeans_spec cf m w hR hM hm
    obtain ⟨N, hN, hNmat, hNent⟩ :=
      normalize_rest { cf with Means := means } m w hR hM hm (by simp [hl])
    refine ⟨N, means, ?_, fun _ => hmean, fun h => absurd hempty h, by omega, hNmat, hNent⟩
    unfold Normalize
    rw [if_pos (by simp [hempty]), hcalc]
    exact hN
  · have hlen : m ≤ cf.Means.length := by
      rcases hMeans with h | h
      · exact absurd h hempty
      · exact h
    obtain ⟨N, hN, hNmat, hNent⟩ := normalize_rest cf m w hR hM hm hlen
    refine ⟨N, cf.Means, ?_, fun h => absurd h hempty, fun _ => rfl, hlen, hNmat, hNent⟩
    unfold Normalize
    rw [if_neg (by simpa using hempty)]
    exact hN

/-- The value `AddUser` stores in position `j` of the new row of `Theta`. -/
theorem addUser_theta_loop (theta : Mat) (F : Nat) (draws : Nat → ℚ) :
    ∃ row k, forLoop (fun i (st : Mat × Nat) => do
        let last ← st.1[st.1.length - 1]?
        if draws st.2 > 0.5 then do
          let last ← setAt last i (draws (st.2 + 1))
          let theta ← setAt st.1 (st.1.length - 1) last
          pure (theta, st.2 + 2)
        else do
          let last ← setAt last i (0 - draws (st.2 + 1))
          let theta ← setAt st.1 (st.1.length - 1) last
          pure (theta, st.2 + 2)) F (theta ++ [List.replicate F 0], 0)
        = some (theta ++ [row], k) ∧
      row.length = F ∧
      ∀ j, j < F → row[j]? = some
        (if draws (2 * j) > 0.5 then draws (2 * j + 1) else 0 - draws (2 * j + 1)) := by
  have key := forLoop_inv (fun i (st : Mat × Nat) => do
        let last ← st.1[st.1.length - 1]?
        if draws st.2 > 0.5 then do
          let last ← setAt last i (draws (st.2 + 1))
          let theta ← setAt st.1 (st.1.length - 1) last
          pure (theta, st.2 + 2)
        else do
          let last ← setAt last i (0 - draws (st.2 + 1))
          let theta ← setAt st.1 (st.1.length - 1) last
          pure (theta, st.2 + 2))
    (fun n (st : Mat × Nat) => ∃ row, st = (theta ++ [row], 2 * n) ∧ row.length = F ∧
      ∀ j, j < n → row[j]? = some
        (if draws (2 * j) > 0.5 then draws (2 * j + 1) else 0 - draws (2 * j + 1)))
    F (theta ++ [List.replicate F 0], 0)
    ⟨List.replicate F 0, rfl, by simp, fun j hj => absurd hj (Nat.not_lt_zero j)⟩
    (by
      intro i hi st ⟨row, hst, hl, hdone⟩
      subst hst
      have hlast : (theta ++ [row])[(theta ++ [row]).length - 1]? = some row := by simp
      have hlt : i < row.length := by omega
      have hlt2 : (theta ++ [row]).length - 1 < (theta ++ [row]).length := by simp
      have hset : ∀ r', (theta ++ [row]).set ((theta ++ [row]).length - 1) r'
          = theta ++ [r'] := by
        intro r'
        simp [List.set_append]
      by_cases hd : draws (2 * i) > 0.5
      · refine ⟨(theta ++ [row.set i (draws (2 * i + 1))], 2 * (i + 1)), ?_,
          row.set i (draws (2 * i + 1)), rfl, by simp [hl], ?_⟩
        · beta_reduce
          rw [hlast]
          simp only [Option.bind_eq_bind, Option.some_bind, if_pos hd, setAt, if_pos hlt,
            if_pos hlt2, hset]
          rfl
        · intro j hj
          by_cases hji : j = i
          · subst hji
            rw [List.getElem?_set_self hlt, if_pos hd]
          · rw [List.getElem?_set_ne (Ne.symm hji)]
            exact hdone j (by omega)
      · refine ⟨(theta ++ [row.set i (0 - draws (2 * i + 1))], 2 * (i + 1)), ?_,
          row.set i (0 - draws (2 * i + 1)), rfl, by simp [hl], ?_⟩
        · beta_reduce
          rw [hlast]
          simp only [Option.bind_eq_bind, Option.some_bind, if_neg hd, setAt, if_pos hlt,
            if_pos hlt2, hset]
          rfl
        · intro j hj
          by_cases hji : j = i
          · subst hji
            rw [List.getElem?_set_self hlt, if_neg hd]
          · rw [List.getElem?_set_ne (Ne.symm hji)]
            exact hdone j (by omega))
  obtain ⟨st, hst, row, rfl, hl, hdone⟩ := key
  exact ⟨row, 2 * F, hst, hl, hdone⟩

/-- What `AddUser` does to a filter whose mask has a row for every row of `Ratings` and
whose `Features` is not negative. -/
theorem addUser_spec (cf : CollaborativeFilter) (votes : Int → Option ℚ) (draws : Nat → ℚ)
    (hA : cf.Ratings.length ≤ cf.AvailableRatings.length) (hF : 0 ≤ cf.Features) :
    ∃ cf', AddUser cf votes draws = some cf' ∧
      cf'.Ratings.length = cf.Ratings.length ∧
      cf'.AvailableRatings.length = cf.AvailableRatings.length ∧
      (∀ i, i < cf.Ratings.length → ∃ r a,
        cf.Ratings[i]? = some r ∧ cf.AvailableRatings[i]? = some a ∧
        cf'.Ratings[i]? = some (r ++ [(votes (i : Int)).getD 0]) ∧
        cf'.AvailableRatings[i]? =
          some (a ++ [if (votes (i : Int)).isSome then 1 else 0])) ∧
      (∀ i, cf.Ratings.length ≤ i → cf'.AvailableRatings[i]? = cf.AvailableRatings[i]?) ∧
      (∃ row, cf'.Theta = cf.Theta ++ [row] ∧ row.length = cf.Features.toNat ∧
        ∀ j, j < cf.Features.toNat → row[j]? = some
          (if draws (2 * j) > 0.5 then draws (2 * j + 1) else 0 - draws (2 * j + 1))) ∧
      cf'.ItemsTheta = cf.ItemsTheta ∧ cf'.Means = cf.Means ∧
      cf'.Features = cf.Features ∧ cf'.Predictions = cf.Predictions := by
  unfold AddUser
  refine bind_forLoop _ _ _ _
    (fun n (t : CollaborativeFilter) =>
      t.Ratings.length = cf.Ratings.length ∧
      t.AvailableRatings.length = cf.AvailableRatings.length ∧
      (∀ i, i < n → ∃ r a,
        cf.Ratings[i]? = some r ∧ cf.AvailableRatings[i]? = some a ∧
        t.Ratings[i]? = some (r ++ [(votes (i : Int)).getD 0]) ∧
        t.AvailableRatings[i]? =
          some (a ++ [if (votes (i : Int)).isSome then 1 else 0])) ∧
      (∀ i, n ≤ i → t.Ratings[i]? = cf.Ratings[i]? ∧
        t.AvailableRatings[i]? = cf.AvailableRatings[i]?) ∧
      t.Theta = cf.Theta ∧ t.ItemsTheta = cf.ItemsTheta ∧ t.Means = cf.Means ∧
      t.Features = cf.Features ∧ t.Predictions = cf.Predictions) _
    ⟨rfl, rfl, fun i hi => absurd hi (Nat.not_lt_zero i), fun _ _ => ⟨rfl, rfl⟩,
      rfl, rfl, rfl, rfl, rfl⟩ ?_ ?_
  · intro i hi t ⟨hRl, hAl, hdone, hrest, hT, hI, hMe, hFe, hPr⟩
    have hiR : i < t.Ratings.length := by omega
    have hiA : i < t.AvailableRatings.length := by omega
    have hr : t.Ratings[i]? = some t.Ratings[i] := List.getElem?_eq_getElem hiR
    have ha : t.AvailableRatings[i]? = some t.AvailableRatings[i] :=
      List.getElem?_eq_getElem hiA
    have hr0 := (hrest i (le_refl i)).1
    have ha0 := (hrest i (le_refl i)).2
    rw [hr] at hr0
    rw [ha] at ha0
    have hpost : ∀ x y, ∃ t',
        some ({ t with Ratings := t.Ratings.set i (t.Ratings[i] ++ [x]),
                       AvailableRatings := t.AvailableRatings.set i
                         (t.AvailableRatings[i] ++ [y]) } : CollaborativeFilter) = some t' ∧
        t'.Ratings.length = cf.Ratings.length ∧
        t'.AvailableRatings.length = cf.AvailableRatings.length ∧
        (∀ k, k < i → ∃ r a,
          cf.Ratings[k]? = some r ∧ cf.AvailableRatings[k]? = some a ∧
          t'.Ratings[k]? = some (r ++ [(votes (k : Int)).getD 0]) ∧
          t'.AvailableRatings[k]? =
            some (a ++ [if (votes (k : Int)).isSome then 1 else 0])) ∧
        t'.Ratings[i]? = some (t.Ratings[i] ++ [x]) ∧
        t'.AvailableRatings[i]? = some (t.AvailableRatings[i] ++ [y]) ∧
        (∀ k, i + 1 ≤ k → t'.Ratings[k]? = cf.Ratings[k]? ∧
          t'.AvailableRatings[k]? = cf.AvailableRatings[k]?) ∧
        t'.Theta = cf.Theta ∧ t'.ItemsTheta = cf.ItemsTheta ∧ t'.Means = cf.Means ∧
        t'.Features = cf.Features ∧ t'.Predictions = cf.Predictions := by
      intro x y
      refine ⟨_, rfl, by simp [hRl], by simp [hAl], ?_, ?_, ?_, ?_, hT, hI, hMe, hFe, hPr⟩
      · intro k hk
        obtain ⟨r, a, h1, h2, h3, h4⟩ := hdone k hk
        refine ⟨r, a, h1, h2, ?_, ?_⟩
        · simp only []
          rw [List.getElem?_set_ne (by omega)]
          exact h3
        · simp only []
          rw [List.getElem?_set_ne (by omega)]
          exact h4
      · simp only []
        rw [List.getElem?_set_self hiR]
      · simp only []
        rw [List.getElem?_set_self hiA]
      · intro k hk
        simp only []
        rw [List.getElem?_set_ne (by omega), List.getElem?_set_ne (by omega)]
        exact hrest k (by omega)
    beta_reduce
    split
    · rename_i score hv
      obtain ⟨t', ht', h1, h2, h3, h4, h5, h6, h7⟩ := hpost score 1
      refine ⟨t', ?_, h1, h2, ?_, h6, h7⟩
      · simp only [hr, ha, Option.bind_eq_bind, Option.some_bind, List.length_set]
        exact ht'
      · intro k hk
        by_cases hki : k = i
        · subst hki
          exact ⟨_, _, hr0.symm, ha0.symm, by simpa [hv] using h4, by simpa [hv] using h5⟩
        · exact h3 k (by omega)
    · rename_i hv
      obtain ⟨t', ht', h1, h2, h3, h4, h5, h6, h7⟩ := hpost 0 0
      refine ⟨t', ?_, h1, h2, ?_, h6, h7⟩
      · simp only [hr, ha, Option.bind_eq_bind, Option.some_bind, List.length_set]
        exact ht'
      · intro k hk
        by_cases hki : k = i
        · subst hki
          exact ⟨_, _, hr0.symm, ha0.symm, by simpa [hv] using h4, by simpa [hv] using h5⟩
        · exact h3 k (by omega)
  · intro t ⟨hRl, hAl, hdone, hrest, hT, hI, hMe, hFe, hPr⟩
    obtain ⟨row, k, hloop, hl, hrow⟩ := addUser_theta_loop t.Theta t.Features.toNat draws
    refine ⟨{ t with Theta := t.Theta ++ [row] }, ?_, hRl, hAl, hdone,
      fun i hi => (hrest i hi).2, ⟨row, by simp [hT], by simpa [hFe] using hl, ?_⟩,
      hI, hMe, hFe, hPr⟩
    · beta_reduce
      rw [if_neg (by rw [hFe]; omega)]
      simp only [Option.bind_eq_bind] at hloop ⊢
      rw [hloop]
      rfl
    · intro j hj
      exact hrow j (by simpa [hFe] using hj)

/-- C4: on a non-empty rectangular `Ratings` with a mask of the same shape (the cached
`Means` being empty or holding an entry for every row), `Normalize` returns a matrix `N`
of the shape of `Ratings` such that `N[i][j] + Means[i] = Ratings[i][j]` where the mask is
`1`, and `N[i][j] = 0` where the mask is not `1`; `Means` are those of the filter after
the call. -/
theorem Normalize_add_mean (cf : CollaborativeFilter) (m w : Nat)
    (hR : IsMat cf.Ratings m w) (hM : IsMat cf.AvailableRatings m w) (hm : 1 ≤ m)
    (hMeans : cf.Means = [] ∨ m ≤ cf.Means.length) :
    ∃ N cf', Normalize cf = some (N, cf') ∧ IsMat N m w ∧
      ∀ i j, i < m → j < w →
        (at2 cf.AvailableRatings i j = some 1 →
          ∃ nij mean rij, at2 N i j = some nij ∧ cf'.Means[i]? = some mean ∧
            at2 cf.Ratings i j = some rij ∧ nij + mean = rij) ∧
        (at2 cf.AvailableRatings i j ≠ some 1 → at2 N i j = some 0) := by
  obtain ⟨N, means, hN, -, -, hlen, hmat, hent⟩ := normalize_spec cf m w hR hM hm hMeans
  refine ⟨N, { cf with Means := means }, hN, hmat, ?_⟩
  intro i j hi hj
  refine ⟨fun hobs => ?_, fun hobs => ?_⟩
  · have hlt : i < means.length := by omega
    refine ⟨ent cf.Ratings i j - means[i], means[i], ent cf.Ratings i j, ?_,
      List.getElem?_eq_getElem hlt, hR.at2_eq hi hj, by ring⟩
    rw [hent i j hi hj, if_pos hobs]
    simp [List.getD, List.getElem?_eq_getElem hlt]
  · rw [hent i j hi hj, if_neg hobs]

/-- C4, on the running example: the means are `5` and `4`, the normalised ratings are
all `0`. -/
theorem Normalize_add_mean_witness :
    IsMat exCF.Ratings 2 2 ∧ IsMat exCF.AvailableRatings 2 2 ∧ exCF.Means = [] ∧
    Normalize exCF = some ([[0, 0], [0, 0]], { exCF with Means := [5, 4] }) ∧
    ∃ N cf', Normalize exCF = some (N, cf') ∧ IsMat N 2 2 ∧
      ∀ i j, i < 2 → j < 2 →
        (at2 exCF.AvailableRatings i j = some 1 →
          ∃ nij mean rij, at2 N i j = some nij ∧ cf'.Means[i]? = some mean ∧
            at2 exCF.Ratings i j = some rij ∧ nij + mean = rij) ∧
        (at2 exCF.AvailableRatings i j ≠ some 1 → at2 N i j = some 0) :=
  ⟨by decide, by decide, rfl,
    by simp [Normalize, CalcMeans, exCF, forLoop, at2, setAt, List.replicate],
    Normalize_add_mean exCF 2 2 (by decide) (by decide) (by decide) (Or.inl rfl)⟩

/-- C5: on a non-empty rectangular `Ratings` with a mask of the same shape, `CalcMeans`
stores one mean per row and changes nothing else, and for every row with an observed entry
(mask `1`) the mean is the sum of the observed ratings of the row divided by their
number. -/
theorem CalcMeans_observed_mean (cf : CollaborativeFilter) (m w : Nat)
    (hR : IsMat cf.Ratings m w) (hM : IsMat cf.AvailableRatings m w) (hm : 1 ≤ m) :
    ∃ means, CalcMeans cf = some { cf with Means := means } ∧ means.length = m ∧
      ∀ i, i < m → (∃ j, j < w ∧ at2 cf.AvailableRatings i j = some 1) →
        means[i]? = some
          ((∑ j in (Finset.range w).filter (fun j => at2 cf.AvailableRatings i j = some 1),
              ent cf.Ratings i j) /
            (((Finset.range w).filter
              (fun j => at2 cf.AvailableRatings i j = some 1)).card : ℚ)) := by
  obtain ⟨means, hcalc, hl, hmean⟩ := calcMeans_spec cf m w hR hM hm
  exact ⟨means, hcalc, hl, fun i hi _ => hmean i hi⟩

/-- C5, on the running example: the means are `5` and `4`. -/
theorem CalcMeans_observed_mean_witness :
    IsMat exCF.Ratings 2 2 ∧ IsMat exCF.AvailableRatings 2 2 ∧
    CalcMeans exCF = some { exCF with Means := [5, 4] } ∧
    ∃ means, CalcMeans exCF = some { exCF with Means := means } ∧ means.length = 2 ∧
      ∀ i, i < 2 → (∃ j, j < 2 ∧ at2 exCF.AvailableRatings i j = some 1) →
        means[i]? = some
          ((∑ j in (Finset.range 2).filter
              (fun j => at2 exCF.AvailableRatings i j = some 1), ent exCF.Ratings i j) /
            (((Finset.range 2).filter
              (fun j => at2 exCF.AvailableRatings i j = some 1)).card : ℚ)) :=
  ⟨by decide, by decide,
    by simp [CalcMeans, exCF, forLoop, at2, setAt, List.replicate],
    CalcMeans_observed_mean exCF 2 2 (by decide) (by decide) (by decide)⟩

/-- C6: `AddUser` turns every row `i` of `Ratings` and of `AvailableRatings` into the old
row followed by one new entry, `(votes[i], 1)` when `i` is a key of `votes` and `(0, 0)`
otherwise; the number of rows stays the same. The filter is one whose mask has a row for
every row of `Ratings` and whose `Features` is not negative; `votes` is any mapping, its
keys outside `[0, itemCount)` are never read. -/
theorem AddUser_appends_column (cf : CollaborativeFilter) (votes : Int → Option ℚ)
    (draws : Nat → ℚ) (hA : cf.Ratings.length ≤ cf.AvailableRatings.length)
    (hF : 0 ≤ cf.Features) :
    ∃ cf', AddUser cf votes draws = some cf' ∧
      cf'.Ratings.length = cf.Ratings.length ∧
      cf'.AvailableRatings.length = cf.AvailableRatings.length ∧
      ∀ i, i < cf.Ratings.length → ∃ r a,
        cf.Ratings[i]? = some r ∧ cf.AvailableRatings[i]? = some a ∧
        ((∀ score, votes (i : Int) = some score →
          cf'.Ratings[i]? = some (r ++ [score]) ∧
          cf'.AvailableRatings[i]? = some (a ++ [1])) ∧
        (votes (i : Int) = none →
          cf'.Ratings[i]? = some (r ++ [0]) ∧
          cf'.AvailableRatings[i]? = some (a ++ [0]))) := by
  obtain ⟨cf', hadd, hRl, hAl, hrows, -⟩ := addUser_spec cf votes draws hA hF
  refine ⟨cf', hadd, hRl, hAl, ?_⟩
  intro i hi
  obtain ⟨r, a, h1, h2, h3, h4⟩ := hrows i hi
  refine ⟨r, a, h1, h2, ?_, ?_⟩
  · intro score hv
    rw [hv] at h3 h4
    exact ⟨by simpa using h3, by simpa using h4⟩
  · intro hv
    rw [hv] at h3 h4
    exact ⟨by simpa using h3, by simpa using h4⟩

/-- C6, on the running example with `votes = {0: 3.0}`: the rows become `[5, 0, 3]`,
`[0, 4, 0]` and the mask rows `[1, 0, 1]`, `[0, 1, 0]`. -/
theorem AddUser_appends_column_witness :
    AddUser exCF (fun k => if k = 0 then some 3 else none) (fun _ => 0) =
      some { exCF with Ratings := [[5, 0, 3], [0, 4, 0]],
                       AvailableRatings := [[1, 0, 1], [0, 1, 0]],
                       Theta := [[5, 6], [7, 8], [0, 0]] } ∧
    ∃ cf', AddUser exCF (fun k => if k = 0 then some 3 else none) (fun _ => 0) = some cf' ∧
      cf'.Ratings.length = 2 ∧ cf'.AvailableRatings.length = 2 := by
  refine ⟨?_, ?_⟩
  · norm_num [AddUser, exCF, forLoop, setAt, List.replicate]
  · obtain ⟨cf', h, h1, h2, -⟩ :=
      AddUser_appends_column exCF (fun k => if k = 0 then some 3 else none) (fun _ => 0)
        (by decide) (by decide)
    exact ⟨cf', h, h1, h2⟩

/-! ## Matrices as tables of entries -/

theorem isMat_matOf (r c : Nat) (g : Nat → Nat → ℚ) : IsMat (matOf r c g) r c := by
  refine ⟨by simp [matOf], ?_⟩
  intro row hrow
  simp only [matOf, List.mem_map] at hrow
  obtain ⟨i, -, rfl⟩ := hrow
  simp

theorem at2_matOf {r c i j : Nat} (g : Nat → Nat → ℚ) (hi : i < r) (hj : j < c) :
    at2 (matOf r c g) i j = some (g i j) := by
  simp [at2, matOf, List.getElem?_map, List.getElem?_range hi, List.getElem?_range hj]

theorem ent_matOf {r c i j : Nat} (g : Nat → Nat → ℚ) (hi : i < r) (hj : j < c) :
    ent (matOf r c g) i j = g i j := by
  simp [ent, at2_matOf g hi hj]

theorem matOf_congr {r c : Nat} {g g' : Nat → Nat → ℚ}
    (h : ∀ i j, i < r → j < c → g i j = g' i j) : matOf r c g = matOf r c g' := by
  refine mat_ext (isMat_matOf r c g) (isMat_matOf r c g') ?_
  intro i j hi hj
  rw [at2_matOf g hi hj, at2_matOf g' hi hj, h i j hi hj]

/-- Every matrix is the table of its entries. -/
theorem IsMat.eq_matOf {A : Mat} {r c : Nat} (h : IsMat A r c) : A = matOf r c (ent A) := by
  refine mat_ext h (isMat_matOf r c _) ?_
  intro i j hi hj
  rw [at2_matOf _ hi hj, h.at2_eq hi hj]

theorem sum_map_range (g : Nat → ℚ) (n : Nat) :
    ((List.range n).map g).sum = ∑ k in Finset.range n, g k := by
  induction n with
  | zero => simp
  | succ k ih => rw [List.sum_range_succ, Finset.sum_range_succ, ih]

theorem dot_map_range (a b : Nat → ℚ) (f : Nat) :
    mt.dot ((List.range f).map a) ((List.range f).map b)
      = ∑ k in Finset.range f, a k * b k := by
  unfold mt.dot
  rw [List.zipWith_map, List.zipWith_same, sum_map_range]

theorem map_length_matOf (r c : Nat) (g : Nat → Nat → ℚ) :
    (matOf r c g).map List.length = List.replicate r c := by
  apply List.ext_getElem?
  intro i
  by_cases hi : i < r
  · simp [matOf, List.getElem?_map, List.getElem?_range hi, List.getElem?_replicate, hi]
  · rw [List.getElem?_eq_none (by simp [matOf]; omega),
      List.getElem?_eq_none (by simp; omega)]

theorem zipWith_matOf (op : ℚ → ℚ → ℚ) (r c : Nat) (a b : Nat → Nat → ℚ) :
    List.zipWith (List.zipWith op) (matOf r c a) (matOf r c b)
      = matOf r c fun i j => op (a i j) (b i j) := by
  unfold matOf
  rw [List.zipWith_map, List.zipWith_same]
  apply List.map_congr_left
  intro i _
  rw [List.zipWith_map, List.zipWith_same]

theorem rows_dot_matOf (m n f : Nat) (p q : Nat → Nat → ℚ) :
    ((matOf m f p).map fun a => (matOf n f q).map fun b => mt.dot a b)
      = matOf m n fun i j => ∑ k in Finset.range f, p i k * q j k := by
  unfold matOf
  rw [List.map_map]
  apply List.map_congr_left
  intro i _
  rw [Function.comp_apply, List.map_map]
  apply List.map_congr_left
  intro j _
  rw [Function.comp_apply, dot_map_range]

theorem MultTrans_matOf (m n f : Nat) (p q : Nat → Nat → ℚ) :
    mt.MultTrans (matOf m f p) (matOf n f q)
      = some (matOf m n fun i j => ∑ k in Finset.range f, p i k * q j k) := by
  unfold mt.MultTrans
  rw [if_pos, rows_dot_matOf]
  intro a ha b hb
  rw [(isMat_matOf m f p).2 a ha, (isMat_matOf n f q).2 b hb]

theorem Sub_matOf (r c : Nat) (a b : Nat → Nat → ℚ) :
    mt.Sub (matOf r c a) (matOf r c b) = some (matOf r c fun i j => a i j - b i j) := by
  unfold mt.Sub
  rw [if_pos (by rw [map_length_matOf, map_length_matOf]), zipWith_matOf]

theorem Sum_matOf (r c : Nat) (a b : Nat → Nat → ℚ) :
    mt.Sum (matOf r c a) (matOf r c b) = some (matOf r c fun i j => a i j + b i j) := by
  unfold mt.Sum
  rw [if_pos (by rw [map_length_matOf, map_length_matOf]), zipWith_matOf]

theorem MultElems_matOf (r c : Nat) (a b : Nat → Nat → ℚ) :
    mt.MultElems (matOf r c a) (matOf r c b)
      = some (matOf r c fun i j => a i j * b i j) := by
  unfold mt.MultElems
  rw [if_pos (by rw [map_length_matOf, map_length_matOf]), zipWith_matOf]

theorem Apply_matOf (r c : Nat) (a : Nat → Nat → ℚ) (h : ℚ → ℚ) :
    mt.Apply (matOf r c a) h = matOf r c fun i j => h (a i j) := by
  simp [mt.Apply, matOf, List.map_map, Function.comp_def]

theorem MultBy_matOf (r c : Nat) (a : Nat → Nat → ℚ) (x : ℚ) :
    mt.MultBy (matOf r c a) x = matOf r c fun i j => a i j * x := by
  simp [mt.MultBy, matOf, List.map_map, Function.comp_def]

theorem SumAll_matOf (r c : Nat) (a : Nat → Nat → ℚ) :
    mt.SumAll (matOf r c a) = ∑ i in Finset.range r, ∑ j in Finset.range c, a i j := by
  unfold mt.SumAll matOf
  rw [List.map_map, sum_map_range]
  apply Finset.sum_congr rfl
  intro i _
  rw [Function.comp_apply, sum_map_range]

theorem Trans_of_isMat {A : Mat} {r c : Nat} (h : IsMat A r c) (hr : 1 ≤ r) :
    mt.Trans A = some (matOf c r fun k i => ent A i k) := by
  cases A with
  | nil =>
    have := h.1
    simp at this
    omega
  | cons r0 rest =>
    have hr0 : r0.length = c := h.2 r0 (List.mem_cons_self _ _)
    have hrest : ∀ x ∈ rest, x.length = r0.length := by
      intro x hx
      rw [hr0]
      exact h.2 x (List.mem_cons_of_mem _ hx)
    simp only [mt.Trans]
    rw [if_pos hrest, hr0]
    congr 1
    unfold matOf
    apply List.map_congr_left
    intro k _
    apply List.ext_getElem?
    intro i
    by_cases hi : i < r
    · obtain ⟨row, hrow, -⟩ := h.row hi
      rw [List.getElem?_map, List.getElem?_map, List.getElem?_range hi, hrow]
      simp [ent, at2, hrow, List.getD_eq_getElem?_getD]
    · have hl := h.1
      rw [List.getElem?_eq_none (by simp only [List.length_map]; omega),
        List.getElem?_eq_none (by simp; omega)]

theorem Trans_matOf (r c : Nat) (g : Nat → Nat → ℚ) (hr : 1 ≤ r) :
    mt.Trans (matOf r c g) = some (matOf c r fun k i => g i k) := by
  rw [Trans_of_isMat (isMat_matOf r c g) hr]
  congr 1
  exact matOf_congr fun k i hk hi => ent_matOf g hi hk

theorem Mult_matOf (m n f : Nat) (a b : Nat → Nat → ℚ) (hn : 1 ≤ n) :
    mt.Mult (matOf m n a) (matOf n f b)
      = some (matOf m f fun i k => ∑ j in Finset.range n, a i j * b j k) := by
  unfold mt.Mult
  rw [Trans_matOf n f b hn]
  simp only [Option.bind_eq_bind, Option.some_bind]
  rw [if_pos, rows_dot_matOf]
  intro x hx
  rw [(isMat_matOf m n a).2 x hx, (isMat_matOf n f b).1]

/-! ## Cost function -/

/-- The cost function on four tables of entries. -/
theorem costFunction_matOf (m n f : Nat) (p q r mk : Nat → Nat → ℚ) (me : List ℚ)
    (F : Int) (pr : Mat) (hm : 1 ≤ m) (hn : 1 ≤ n) (lambda : ℚ) (calcGrad : Bool) :
    CostFunction ⟨matOf m n r, matOf m n mk, matOf m f p, matOf n f q, me, F, pr⟩
        lambda calcGrad
      = some
        ((∑ i in Finset.range m, ∑ j in Finset.range n,
            powTwo ((∑ k in Finset.range f, p i k * q j k - r i j) * mk i j)) / 2
          + lambda / 2 * (∑ j in Finset.range n, ∑ k in Finset.range f, powTwo (q j k))
          + lambda / 2 * (∑ i in Finset.range m, ∑ k in Finset.range f, powTwo (p i k)),
        if calcGrad then
          [matOf m f fun i k =>
              (∑ j in Finset.range n,
                ((∑ k in Finset.range f, p i k * q j k - r i j) * mk i j) * q j k)
              + p i k * lambda,
            matOf n f fun j k =>
              (∑ i in Finset.range m,
                ((∑ k in Finset.range f, p i k * q j k - r i j) * mk i j) * p i k)
              + q j k * lambda]
        else []) := by
  unfold CostFunction
  simp only [MultTrans_matOf, Sub_matOf, MultElems_matOf, Apply_matOf, SumAll_matOf,
    Option.bind_eq_bind, Option.some_bind]
  cases calcGrad
  · rfl
  · simp only [if_true, Mult_matOf _ _ _ _ _ hn, Mult_matOf _ _ _ _ _ hm,
      Trans_matOf _ _ _ hm, MultBy_matOf, Sum_matOf, Option.bind_eq_bind, Option.some_bind]
    rfl

/-- Refinement: on shape-consistent matrices with at least one item and one user,
`CostFunction` returns the cost of the spec and, when asked, the two gradients of the
spec. -/
theorem costFunction_eq (cf : CollaborativeFilter) (m n f : Nat) (hS : Shaped cf m n f)
    (hm : 1 ≤ m) (hn : 1 ≤ n) (lambda : ℚ) (calcGrad : Bool) :
    CostFunction cf lambda calcGrad
      = some (costSpec cf m n f lambda,
        if calcGrad then
          [matOf m f (gradPSpec cf n f lambda), matOf n f (gradQSpec cf m f lambda)]
        else []) := by
  obtain ⟨hP, hQ, hR, hM⟩ := hS
  have hcf : cf = ⟨matOf m n (ent cf.Ratings), matOf m n (ent cf.AvailableRatings),
      matOf m f (ent cf.ItemsTheta), matOf n f (ent cf.Theta), cf.Means, cf.Features,
      cf.Predictions⟩ := by
    cases cf
    simp only [CollaborativeFilter.mk.injEq, and_true]
    exact ⟨hR.eq_matOf, hM.eq_matOf, hP.eq_matOf, hQ.eq_matOf⟩
  conv_lhs => rw [hcf]
  rw [costFunction_matOf m n f _ _ _ _ _ _ _ hm hn]
  congr 1
  refine Prod.ext ?_ ?_
  · simp only [costSpec, residual, powTwo, pow_two]
  · cases calcGrad
    · rfl
    · simp only [if_true]
      congr 1
      · exact matOf_congr fun i k _ _ => by simp only [gradPSpec, residual, mul_comm]
      · congr 1
        exact matOf_congr fun j k _ _ => by simp only [gradQSpec, residual, mul_comm]

/-! ### Finite differences in one entry -/

theorem at2_bump {A : Mat} {r c a b : Nat} (hA : IsMat A r c) (ha : a < r) (hb : b < c)
    (h : ℚ) (i j : Nat) :
    at2 (bump A a b h) i j = if i = a ∧ j = b then some (ent A a b + h) else at2 A i j := by
  obtain ⟨row, hrow, hlen⟩ := hA.row ha
  have hal : a < A.length := by rw [hA.1]; exact ha
  have hbl : b < row.length := by rw [hlen]; exact hb
  have hgetD : A.getD a [] = row := by simp [List.getD_eq_getElem?_getD, hrow]
  unfold bump
  rw [hgetD]
  by_cases hia : i = a
  · subst hia
    by_cases hjb : j = b
    · subst hjb
      simp [at2, List.getElem?_set_self hal, List.getElem?_set_self hbl]
    · simp [at2, List.getElem?_set_self hal, List.getElem?_set_ne (Ne.symm hjb), hjb, hrow]
  · simp [at2, List.getElem?_set_ne (Ne.symm hia), hia]

theorem ent_bump {A : Mat} {r c a b : Nat} (hA : IsMat A r c) (ha : a < r) (hb : b < c)
    (h : ℚ) (i j : Nat) :
    ent (bump A a b h) i j = ent A i j + h * (if i = a ∧ j = b then 1 else 0) := by
  unfold ent
  rw [at2_bump hA ha hb]
  by_cases hij : i = a ∧ j = b
  · obtain ⟨rfl, rfl⟩ := hij
    simp [ent]
  · simp [hij]

theorem isMat_bump {A : Mat} {r c : Nat} (hA : IsMat A r c) (a b : Nat) (h : ℚ) :
    IsMat (bump A a b h) r c := by
  refine isMat_of_rows (by simp [bump, hA.1]) ?_
  intro i hi
  obtain ⟨row, hrow, hlen⟩ := hA.row hi
  by_cases hia : i = a
  · subst hia
    have hal : i < A.length := by rw [hA.1]; exact hi
    refine ⟨(A.getD i []).set b (ent A i b + h), ?_, ?_⟩
    · unfold bump
      rw [List.getElem?_set_self hal]
    · simp [List.getD_eq_getElem?_getD, hrow, hlen]
  · refine ⟨row, ?_, hlen⟩
    unfold bump
    rw [List.getElem?_set_ne (Ne.symm hia), hrow]

/-- A sum of squares along a line: the difference between the two sides of a point. -/
theorem sum_sq_diff (m n : Nat) (e d : Nat → Nat → ℚ) (t : ℚ) :
    (∑ i in Finset.range m, ∑ j in Finset.range n, (e i j + t * d i j) ^ 2)
      - (∑ i in Finset.range m, ∑ j in Finset.range n, (e i j + (-t) * d i j) ^ 2)
      = 4 * t * ∑ i in Finset.range m, ∑ j in Finset.range n, e i j * d i j := by
  rw [← Finset.sum_sub_distrib, Finset.mul_sum]
  apply Finset.sum_congr rfl
  intro i _
  rw [← Finset.sum_sub_distrib, Finset.mul_sum]
  apply Finset.sum_congr rfl
  intro j _
  ring

/-- The sum over a table of the entries picked by the indicator of `(a, b)`. -/
theorem sum_indicator (m f a b : Nat) (ha : a < m) (hb : b < f) (g : Nat → Nat → ℚ) :
    (∑ i in Finset.range m, ∑ k in Finset.range f,
      g i k * (if i = a ∧ k = b then 1 else 0)) = g a b := by
  rw [Finset.sum_eq_single a]
  · rw [Finset.sum_eq_single b]
    · simp
    · intro k _ hk
      simp [hk]
    · intro hb'
      exact absurd (Finset.mem_range.2 hb) hb'
  · intro i _ hi
    apply Finset.sum_eq_zero
    intro k _
    simp [hi]
  · intro ha'
    exact absurd (Finset.mem_range.2 ha) ha'

theorem residual_mul_mask (cf : CollaborativeFilter) (f i j : Nat)
    (hmask : ent cf.AvailableRatings i j = 0 ∨ ent cf.AvailableRatings i j = 1) :
    residual cf f i j * ent cf.AvailableRatings i j = residual cf f i j := by
  unfold residual
  rcases hmask with h | h <;> rw [h] <;> ring

/-- The residual after a step `t` in the entry `(a, b)` of `ItemsTheta`. -/
theorem residual_bump_items (cf : CollaborativeFilter) (m f a b : Nat)
    (hP : IsMat cf.ItemsTheta m f) (ha : a < m) (hb : b < f) (t : ℚ) (i j : Nat) :
    residual { cf with ItemsTheta := bump cf.ItemsTheta a b t } f i j
      = residual cf f i j
        + t * ((if i = a then ent cf.Theta j b else 0) * ent cf.AvailableRatings i j) := by
  have hsum : (∑ k in Finset.range f,
      (ent cf.ItemsTheta i k + t * (if i = a ∧ k = b then 1 else 0)) * ent cf.Theta j k)
      = (∑ k in Finset.range f, ent cf.ItemsTheta i k * ent cf.Theta j k)
        + t * (if i = a then ent cf.Theta j b else 0) := by
    simp only [add_mul, Finset.sum_add_distrib]
    congr 1
    by_cases hia : i = a
    · simp only [hia, true_and, if_true]
      rw [Finset.sum_eq_single b]
      · simp
      · intro k _ hk
        simp [hk]
      · intro hb'
        exact absurd (Finset.mem_range.2 hb) hb'
    · simp [hia]
  simp only [residual, ent_bump hP ha hb, hsum]
  ring

/-- The residual after a step `t` in the entry `(a, b)` of `Theta`. -/
theorem residual_bump_theta (cf : CollaborativeFilter) (n f a b : Nat)
    (hQ : IsMat cf.Theta n f) (ha : a < n) (hb : b < f) (t : ℚ) (i j : Nat) :
    residual { cf with Theta := bump cf.Theta a b t } f i j
      = residual cf f i j
        + t * ((if j = a then ent cf.ItemsTheta i b else 0)
          * ent cf.AvailableRatings i j) := by
  have hsum : (∑ k in Finset.range f,
      ent cf.ItemsTheta i k * (ent cf.Theta j k + t * (if j = a ∧ k = b then 1 else 0)))
      = (∑ k in Finset.range f, ent cf.ItemsTheta i k * ent cf.Theta j k)
        + t * (if j = a then ent cf.ItemsTheta i b else 0) := by
    simp only [mul_add, Finset.sum_add_distrib]
    congr 1
    by_cases hja : j = a
    · simp only [hja, true_and, if_true]
      rw [Finset.sum_eq_single b]
      · simp
        ring
      · intro k _ hk
        simp [hk]
      · intro hb'
        exact absurd (Finset.mem_range.2 hb) hb'
    · simp [hja]
  simp only [residual, ent_bump hQ ha hb, hsum]
  ring

/-- The cost on the two sides of a point, one step `t` apart in the entry `(a, b)` of
`ItemsTheta`, differs by `2 t` times the gradient of the spec. -/
theorem cost_diff_items (cf : CollaborativeFilter) (m n f a b : Nat)
    (hP : IsMat cf.ItemsTheta m f) (ha : a < m) (hb : b < f)
    (hmask : ∀ j, j < n →
      ent cf.AvailableRatings a j = 0 ∨ ent cf.AvailableRatings a j = 1)
    (lambda t : ℚ) :
    costSpec { cf with ItemsTheta := bump cf.ItemsTheta a b t } m n f lambda
      - costSpec { cf with ItemsTheta := bump cf.ItemsTheta a b (-t) } m n f lambda
      = 2 * t * gradPSpec cf n f lambda a b := by
  have h1 := sum_sq_diff m n (residual cf f)
    (fun i j => (if i = a then ent cf.Theta j b else 0) * ent cf.AvailableRatings i j) t
  have h2 := sum_sq_diff m f (ent cf.ItemsTheta)
    (fun i k => if i = a ∧ k = b then 1 else 0) t
  have h3 : (∑ i in Finset.range m, ∑ j in Finset.range n, residual cf f i j *
      ((if i = a then ent cf.Theta j b else 0) * ent cf.AvailableRatings i j))
      = ∑ j in Finset.range n, residual cf f a j * ent cf.Theta j b := by
    rw [Finset.sum_eq_single a]
    · apply Finset.sum_congr rfl
      intro j hj
      rw [if_pos rfl, mul_comm (ent cf.Theta j b), ← mul_assoc,
        residual_mul_mask cf f a j (hmask j (Finset.mem_range.1 hj))]
    · intro i _ hi
      apply Finset.sum_eq_zero
      intro j _
      simp [hi]
    · intro ha'
      exact absurd (Finset.mem_range.2 ha) ha'
  have h4 := sum_indicator m f a b ha hb (ent cf.ItemsTheta)
  beta_reduce at h1 h2
  simp only [costSpec, gradPSpec, residual_bump_items cf m f a b hP ha hb,
    ent_bump hP ha hb]
  linear_combination (1 / 2) * h1 + (lambda / 2) * h2 + (2 * t) * h3 + (2 * t * lambda) * h4

/-- The cost on the two sides of a point, one step `t` apart in the entry `(a, b)` of
`Theta`, differs by `2 t` times the gradient of the spec. -/
theorem cost_diff_theta (cf : CollaborativeFilter) (m n f a b : Nat)
    (hQ : IsMat cf.Theta n f) (ha : a < n) (hb : b < f)
    (hmask : ∀ i, i < m →
      ent cf.AvailableRatings i a = 0 ∨ ent cf.AvailableRatings i a = 1)
    (lambda t : ℚ) :
    costSpec { cf with Theta := bump cf.Theta a b t } m n f lambda
      - costSpec { cf with Theta := bump cf.Theta a b (-t) } m n f lambda
      = 2 * t * gradQSpec cf m f lambda a b := by
  have h1 := sum_sq_diff m n (residual cf f)
    (fun i j => (if j = a then ent cf.ItemsTheta i b else 0) * ent cf.AvailableRatings i j) t
  have h2 := sum_sq_diff n f (ent cf.Theta)
    (fun j k => if j = a ∧ k = b then 1 else 0) t
  have h3 : (∑ i in Finset.range m, ∑ j in Finset.range n, residual cf f i j *
      ((if j = a then ent cf.ItemsTheta i b else 0) * ent cf.AvailableRatings i j))
      = ∑ i in Finset.range m, residual cf f i a * ent cf.ItemsTheta i b := by
    apply Finset.sum_congr rfl
    intro i hi
    rw [Finset.sum_eq_single a]
    · rw [if_pos rfl, mul_comm (ent cf.ItemsTheta i b), ← mul_assoc,
        residual_mul_mask cf f i a (hmask i (Finset.mem_range.1 hi))]
    · intro j _ hj
      simp [hj]
    · intro ha'
      exact absurd (Finset.mem_range.2 ha) ha'
  have h4 := sum_indicator n f a b ha hb (ent cf.Theta)
  beta_reduce at h1 h2
  simp only [costSpec, gradQSpec, residual_bump_theta cf n f a b hQ ha hb,
    ent_bump hQ ha hb]
  linear_combination (1 / 2) * h1 + (lambda / 2) * h2 + (2 * t) * h3 + (2 * t * lambda) * h4

theorem ent_of_at2 {A : Mat} {i j : Nat} {v : ℚ} (h : at2 A i j = some v) :
    ent A i j = v := by
  simp [ent, h]

/-- C7: for shape-consistent `P` (`m × f`), `Q` (`n × f`), `R` and `M` (`m × n`, at least
one item and one user) with every mask entry `0` or `1`, every `lambda` and every step
`h ≠ 0`: `CostFunction` with `calcGrad = true` returns two gradient matrices of the shapes
of `P` and `Q`, namely `E · Q + λ·P` and `Eᵗ · P + λ·Q`, and for every single entry of `P`
and of `Q` the central difference `(J(θ + h·e) − J(θ − h·e)) / (2h)` of the returned cost
equals the corresponding gradient entry. -/
theorem CostFunction_gradient_check (cf : CollaborativeFilter) (m n f : Nat)
    (hS : Shaped cf m n f) (hm : 1 ≤ m) (hn : 1 ≤ n)
    (hmask : ∀ i j, i < m → j < n →
      at2 cf.AvailableRatings i j = some 0 ∨ at2 cf.AvailableRatings i j = some 1)
    (lambda h : ℚ) (hh : h ≠ 0) :
    ∃ j gP gQ, CostFunction cf lambda true = some (j, [gP, gQ]) ∧
      IsMat gP m f ∧ IsMat gQ n f ∧
      (∀ a b, a < m → b < f → ∃ jp jm g,
        CostFunction { cf with ItemsTheta := bump cf.ItemsTheta a b h } lambda false
          = some (jp, []) ∧
        CostFunction { cf with ItemsTheta := bump cf.ItemsTheta a b (-h) } lambda false
          = some (jm, []) ∧
        at2 gP a b = some g ∧ g = gradPSpec cf n f lambda a b ∧
        (jp - jm) / (2 * h) = g) ∧
      (∀ a b, a < n → b < f → ∃ jp jm g,
        CostFunction { cf with Theta := bump cf.Theta a b h } lambda false
          = some (jp, []) ∧
        CostFunction { cf with Theta := bump cf.Theta a b (-h) } lambda false
          = some (jm, []) ∧
        at2 gQ a b = some g ∧ g = gradQSpec cf m f lambda a b ∧
        (jp - jm) / (2 * h) = g) := by
  obtain ⟨hP, hQ, hR, hM⟩ := hS
  have hmask' : ∀ i j, i < m → j < n →
      ent cf.AvailableRatings i j = 0 ∨ ent cf.AvailableRatings i j = 1 := by
    intro i j hi hj
    rcases hmask i j hi hj with h0 | h1
    · exact Or.inl (ent_of_at2 h0)
    · exact Or.inr (ent_of_at2 h1)
  have h2h : 2 * h ≠ 0 := mul_ne_zero two_ne_zero hh
  refine ⟨costSpec cf m n f lambda, matOf m f (gradPSpec cf n f lambda),
    matOf n f (gradQSpec cf m f lambda), ?_, isMat_matOf _ _ _, isMat_matOf _ _ _, ?_, ?_⟩
  · rw [costFunction_eq cf m n f ⟨hP, hQ, hR, hM⟩ hm hn lambda true]
    rfl
  · intro a b ha hb
    refine ⟨_, _, gradPSpec cf n f lambda a b,
      costFunction_eq { cf with ItemsTheta := bump cf.ItemsTheta a b h } m n f
        ⟨isMat_bump hP a b h, hQ, hR, hM⟩ hm hn lambda false,
      costFunction_eq { cf with ItemsTheta := bump cf.ItemsTheta a b (-h) } m n f
        ⟨isMat_bump hP a b (-h), hQ, hR, hM⟩ hm hn lambda false,
      at2_matOf _ ha hb, rfl, ?_⟩
    rw [cost_diff_items cf m n f a b hP ha hb (fun j hj => hmask' a j ha hj) lambda h]
    field_simp
  · intro a b ha hb
    refine ⟨_, _, gradQSpec cf m f lambda a b,
      costFunction_eq { cf with Theta := bump cf.Theta a b h } m n f
        ⟨hP, isMat_bump hQ a b h, hR, hM⟩ hm hn lambda false,
      costFunction_eq { cf with Theta := bump cf.Theta a b (-h) } m n f
        ⟨hP, isMat_bump hQ a b (-h), hR, hM⟩ hm hn lambda false,
      at2_matOf _ ha hb, rfl, ?_⟩
    rw [cost_diff_theta cf m n f a b hQ ha hb (fun i hi => hmask' i a hi ha) lambda h]
    field_simp

/-- The mask of the running example holds only `0` and `1`. -/
theorem exCF_mask : ∀ i j, i < 2 → j < 2 →
    at2 exCF.AvailableRatings i j = some 0 ∨ at2 exCF.AvailableRatings i j = some 1 := by
  intro i j hi hj
  have hi' : i = 0 ∨ i = 1 := by omega
  have hj' : j = 0 ∨ j = 1 := by omega
  rcases hi' with rfl | rfl <;> rcases hj' with rfl | rfl <;> decide

/-- C7, on the running example with `lambda = 1` and step `h = 1/2`. -/
theorem CostFunction_gradient_check_witness :
    Shaped exCF 2 2 2 ∧
    (∀ i j, i < 2 → j < 2 →
      at2 exCF.AvailableRatings i j = some 0 ∨ at2 exCF.AvailableRatings i j = some 1) ∧
    ∃ j gP gQ, CostFunction exCF 1 true = some (j, [gP, gQ]) ∧
      IsMat gP 2 2 ∧ IsMat gQ 2 2 ∧
      (∀ a b, a < 2 → b < 2 → ∃ jp jm g,
        CostFunction { exCF with ItemsTheta := bump exCF.ItemsTheta a b (1 / 2) } 1 false
          = some (jp, []) ∧
        CostFunction { exCF with ItemsTheta := bump exCF.ItemsTheta a b (-(1 / 2)) } 1 false
          = some (jm, []) ∧
        at2 gP a b = some g ∧ g = gradPSpec exCF 2 2 1 a b ∧
        (jp - jm) / (2 * (1 / 2)) = g) ∧
      (∀ a b, a < 2 → b < 2 → ∃ jp jm g,
        CostFunction { exCF with Theta := bump exCF.Theta a b (1 / 2) } 1 false
          = some (jp, []) ∧
        CostFunction { exCF with Theta := bump exCF.Theta a b (-(1 / 2)) } 1 false
          = some (jm, []) ∧
        at2 gQ a b = some g ∧ g = gradQSpec exCF 2 2 1 a b ∧
        (jp - jm) / (2 * (1 / 2)) = g) :=
  ⟨by decide, exCF_mask,
    CostFunction_gradient_check exCF 2 2 2 (by decide) (by decide) (by decide) exCF_mask
      1 (1 / 2) (by norm_num)⟩

theorem costSpec_nonneg (cf : CollaborativeFilter) (m n f : Nat) (lambda : ℚ)
    (hl : 0 ≤ lambda) : 0 ≤ costSpec cf m n f lambda := by
  unfold costSpec
  positivity

theorem costSpec_mono (cf : CollaborativeFilter) (m n f : Nat) (l1 l2 : ℚ) (hl : l1 ≤ l2) :
    costSpec cf m n f l1 ≤ costSpec cf m n f l2 := by
  have hQ : 0 ≤ ∑ j in Finset.range n, ∑ k in Finset.range f, ent cf.Theta j k ^ 2 := by
    positivity
  have hP : 0 ≤ ∑ i in Finset.range m, ∑ k in Finset.range f, ent cf.ItemsTheta i k ^ 2 := by
    positivity
  unfold costSpec
  nlinarith [mul_nonneg (sub_nonneg.2 hl) hQ, mul_nonneg (sub_nonneg.2 hl) hP]

/-- C8: for shape-consistent `P`, `Q`, `R`, `M` (at least one item and one user) and
every `lambda ≥ 0`, `CostFunction` returns a cost, which is
`(1/2)·Σ E_ij² + (λ/2)·Σ Q_ij² + (λ/2)·Σ P_ij²` with `E = (P·Qᵗ − R) ⊙ M`, and that cost
is not negative. -/
theorem CostFunction_nonneg (cf : CollaborativeFilter) (m n f : Nat)
    (hS : Shaped cf m n f) (hm : 1 ≤ m) (hn : 1 ≤ n) (lambda : ℚ) (hl : 0 ≤ lambda)
    (calcGrad : Bool) :
    ∃ j grad, CostFunction cf lambda calcGrad = some (j, grad) ∧
      j = (∑ i in Finset.range m, ∑ j in Finset.range n, residual cf f i j ^ 2) / 2
        + lambda / 2 * (∑ j in Finset.range n, ∑ k in Finset.range f, ent cf.Theta j k ^ 2)
        + lambda / 2
          * (∑ i in Finset.range m, ∑ k in Finset.range f, ent cf.ItemsTheta i k ^ 2) ∧
      0 ≤ j :=
  ⟨_, _, costFunction_eq cf m n f hS hm hn lambda calcGrad, rfl,
    costSpec_nonneg cf m n f lambda hl⟩

/-- C8, on the running example with `lambda = 1`. -/
theorem CostFunction_nonneg_witness :
    Shaped exCF 2 2 2 ∧ (0 : ℚ) ≤ 1 ∧
    ∃ j grad, CostFunction exCF 1 false = some (j, grad) ∧ 0 ≤ j := by
  refine ⟨by decide, by norm_num, ?_⟩
  obtain ⟨j, grad, h, -, hj⟩ :=
    CostFunction_nonneg exCF 2 2 2 (by decide) (by decide) (by decide) 1 (by norm_num) false
  exact ⟨j, grad, h, hj⟩

/-- C9: for fixed shape-consistent `P`, `Q`, `R`, `M` (at least one item and one user)
and `l1 ≤ l2`, the cost `CostFunction` returns with `l1` is at most the cost it returns
with `l2`. -/
theorem CostFunction_mono_lambda (cf : CollaborativeFilter) (m n f : Nat)
    (hS : Shaped cf m n f) (hm : 1 ≤ m) (hn : 1 ≤ n) (l1 l2 : ℚ) (hl : l1 ≤ l2)
    (calcGrad1 calcGrad2 : Bool) :
    ∃ j1 grad1 j2 grad2, CostFunction cf l1 calcGrad1 = some (j1, grad1) ∧
      CostFunction cf l2 calcGrad2 = some (j2, grad2) ∧ j1 ≤ j2 :=
  ⟨_, _, _, _, costFunction_eq cf m n f hS hm hn l1 calcGrad1,
    costFunction_eq cf m n f hS hm hn l2 calcGrad2, costSpec_mono cf m n f l1 l2 hl⟩

/-- C9, on the running example with `lambda` going from `0` to `1`. -/
theorem CostFunction_mono_lambda_witness :
    Shaped exCF 2 2 2 ∧ (0 : ℚ) ≤ 1 ∧
    ∃ j1 grad1 j2 grad2, CostFunction exCF 0 false = some (j1, grad1) ∧
      CostFunction exCF 1 false = some (j2, grad2) ∧ j1 ≤ j2 :=
  ⟨by decide, by norm_num,
    CostFunction_mono_lambda exCF 2 2 2 (by decide) (by decide) (by decide) 0 1
      (by norm_num) false false⟩

/-- C10 as stated fails: in `maskTwoCF` the only cell with mask `1` is `(0, 0)`, where
`P·Qᵗ` equals the rating, the cell `(0, 1)` has mask `2`, and the cost for `lambda = 0`
is `2`. -/
theorem CostFunction_zero_counterexample :
    Shaped maskTwoCF 1 2 1 ∧
    (at2 maskTwoCF.AvailableRatings 0 0 = some 1 ∧
      (∑ k in Finset.range 1, ent maskTwoCF.ItemsTheta 0 k * ent maskTwoCF.Theta 0 k)
        = ent maskTwoCF.Ratings 0 0) ∧
    at2 maskTwoCF.AvailableRatings 0 1 ≠ some 1 ∧
    CostFunction maskTwoCF 0 false = some (2, []) := by
  refine ⟨by decide, ⟨by decide, ?_⟩, by decide, ?_⟩
  · simp [ent, at2, maskTwoCF]
  · norm_num [CostFunction, maskTwoCF, mt.MultTrans, mt.Sub, mt.MultElems, mt.SumAll,
      mt.Apply, mt.dot, powTwo]

/-- C10, amended: for shape-consistent `P`, `Q`, `R`, `M` (at least one item and one
user) such that `(P·Qᵗ)[i][j] = R[i][j]` at every cell whose mask entry is not `0`,
`CostFunction` with `lambda = 0` returns cost `0`. -/
theorem CostFunction_zero_of_fit (cf : CollaborativeFilter) (m n f : Nat)
    (hS : Shaped cf m n f) (hm : 1 ≤ m) (hn : 1 ≤ n)
    (hfit : ∀ i j, i < m → j < n → at2 cf.AvailableRatings i j ≠ some 0 →
      (∑ k in Finset.range f, ent cf.ItemsTheta i k * ent cf.Theta j k)
        = ent cf.Ratings i j)
    (calcGrad : Bool) :
    ∃ grad, CostFunction cf 0 calcGrad = some (0, grad) := by
  have hcf := costFunction_eq cf m n f hS hm hn 0 calcGrad
  have hres : ∀ i j, i < m → j < n → residual cf f i j = 0 := by
    intro i j hi hj
    unfold residual
    by_cases h0 : at2 cf.AvailableRatings i j = some 0
    · rw [ent_of_at2 h0, mul_zero]
    · rw [hfit i j hi hj h0, sub_self, zero_mul]
  have hsum : (∑ i in Finset.range m, ∑ j in Finset.range n, residual cf f i j ^ 2) = 0 := by
    apply Finset.sum_eq_zero
    intro i hi
    apply Finset.sum_eq_zero
    intro j hj
    rw [hres i j (Finset.mem_range.1 hi) (Finset.mem_range.1 hj)]
    ring
  have hcost : costSpec cf m n f 0 = 0 := by
    unfold costSpec
    rw [hsum]
    ring
  rw [hcost] at hcf
  exact ⟨_, hcf⟩

/-- C10 amended, on the running example with `P = R` and `Q` the identity, so that
`P·Qᵗ = R`. -/
theorem CostFunction_zero_of_fit_witness :
    Shaped { exCF with ItemsTheta := [[5, 0], [0, 4]], Theta := [[1, 0], [0, 1]] } 2 2 2 ∧
    ∃ grad, CostFunction
      { exCF with ItemsTheta := [[5, 0], [0, 4]], Theta := [[1, 0], [0, 1]] } 0 false
        = some (0, grad) := by
  refine ⟨by decide, ?_⟩
  refine CostFunction_zero_of_fit
    { exCF with ItemsTheta := [[5, 0], [0, 4]], Theta := [[1, 0], [0, 1]] } 2 2 2
    (by decide) (by decide) (by decide) ?_ false
  intro i j hi hj _
  have hi' : i = 0 ∨ i = 1 := by omega
  have hj' : j = 0 ∨ j = 1 := by omega
  rcases hi' with rfl | rfl <;> rcases hj' with rfl | rfl <;>
    simp [ent, at2, exCF, Finset.sum_range_succ]

/-- The residual reads the ratings only where the mask is not `0`. -/
theorem residual_congr_ratings (cf : CollaborativeFilter) (R' : Mat) (f i j : Nat)
    (h : ent cf.AvailableRatings i j = 0 ∨ ent R' i j = ent cf.Ratings i j) :
    residual { cf with Ratings := R' } f i j = residual cf f i j := by
  unfold residual
  rcases h with h | h
  · simp only [h, mul_zero]
  · simp only [h]

/-- C11: for shape-consistent `P`, `Q`, a mask `M` with entries `0` or `1` and every
`lambda`, two rating matrices `R` and `R'` that agree wherever `M` is `1` give the same
result of `CostFunction`: the same cost and the same gradient matrices. -/
theorem CostFunction_unobserved_irrelevant (cf : CollaborativeFilter) (R' : Mat)
    (m n f : Nat) (hS : Shaped cf m n f) (hR' : IsMat R' m n) (hm : 1 ≤ m) (hn : 1 ≤ n)
    (hmask : ∀ i j, i < m → j < n →
      at2 cf.AvailableRatings i j = some 0 ∨ at2 cf.AvailableRatings i j = some 1)
    (hagree : ∀ i j, i < m → j < n → at2 cf.AvailableRatings i j = some 1 →
      at2 R' i j = at2 cf.Ratings i j)
    (lambda : ℚ) (calcGrad : Bool) :
    ∃ j grad, CostFunction cf lambda calcGrad = some (j, grad) ∧
      CostFunction { cf with Ratings := R' } lambda calcGrad = some (j, grad) ∧
      (calcGrad = true → ∃ gP gQ, grad = [gP, gQ] ∧ IsMat gP m f ∧ IsMat gQ n f) := by
  obtain ⟨hP, hQ, hR, hM⟩ := hS
  have hres : ∀ i j, i < m → j < n →
      residual { cf with Ratings := R' } f i j = residual cf f i j := by
    intro i j hi hj
    apply residual_congr_ratings
    rcases hmask i j hi hj with h0 | h1
    · exact Or.inl (ent_of_at2 h0)
    · right
      unfold ent
      rw [hagree i j hi hj h1]
  have hcost : costSpec { cf with Ratings := R' } m n f lambda = costSpec cf m n f lambda := by
    have hsum : (∑ i in Finset.range m, ∑ j in Finset.range n,
        residual { cf with Ratings := R' } f i j ^ 2)
        = ∑ i in Finset.range m, ∑ j in Finset.range n, residual cf f i j ^ 2 := by
      apply Finset.sum_congr rfl
      intro i hi
      apply Finset.sum_congr rfl
      intro j hj
      rw [hres i j (Finset.mem_range.1 hi) (Finset.mem_range.1 hj)]
    unfold costSpec
    rw [hsum]
  have hgP : matOf m f (gradPSpec { cf with Ratings := R' } n f lambda)
      = matOf m f (gradPSpec cf n f lambda) := by
    apply matOf_congr
    intro i k hi _
    unfold gradPSpec
    congr 1
    apply Finset.sum_congr rfl
    intro j hj
    rw [hres i j hi (Finset.mem_range.1 hj)]
  have hgQ : matOf n f (gradQSpec { cf with Ratings := R' } m f lambda)
      = matOf n f (gradQSpec cf m f lambda) := by
    apply matOf_congr
    intro j k hj _
    unfold gradQSpec
    congr 1
    apply Finset.sum_congr rfl
    intro i hi
    rw [hres i j (Finset.mem_range.1 hi) hj]
  refine ⟨_, _, costFunction_eq cf m n f ⟨hP, hQ, hR, hM⟩ hm hn lambda calcGrad, ?_, ?_⟩
  · rw [costFunction_eq { cf with Ratings := R' } m n f ⟨hP, hQ, hR', hM⟩ hm hn lambda
      calcGrad, hcost, hgP, hgQ]
  · intro hcg
    subst hcg
    exact ⟨_, _, rfl, isMat_matOf _ _ _, isMat_matOf _ _ _⟩

/-- C11, on the running example: the two unobserved ratings `0` replaced by `9` and
`7`. -/
theorem CostFunction_unobserved_irrelevant_witness :
    Shaped exCF 2 2 2 ∧ IsMat [[5, 9], [7, 4]] 2 2 ∧
    ∃ j grad, CostFunction exCF 1 true = some (j, grad) ∧
      CostFunction { exCF with Ratings := [[5, 9], [7, 4]] } 1 true = some (j, grad) := by
  refine ⟨by decide, by decide, ?_⟩
  obtain ⟨j, grad, h1, h2, -⟩ :=
    CostFunction_unobserved_irrelevant exCF [[5, 9], [7, 4]] 2 2 2 (by decide) (by decide)
      (by decide) (by decide) exCF_mask
      (by
        intro i j hi hj
        have hi' : i = 0 ∨ i = 1 := by omega
        have hj' : j = 0 ∨ j = 1 := by omega
        rcases hi' with rfl | rfl <;> rcases hj' with rfl | rfl <;> decide)
      1 true
  exact ⟨j, grad, h1, h2⟩

/-- C14: on a non-empty rectangular `Ratings` with a mask of the same shape, `Normalize`
returns a new matrix and leaves `Ratings` and `AvailableRatings` of the filter exactly as
they were, whether the means were computed by this call (`Means` empty before) or were
cached already (one per row). -/
theorem Normalize_keeps_ratings (cf : CollaborativeFilter) (m w : Nat)
    (hR : IsMat cf.Ratings m w) (hM : IsMat cf.AvailableRatings m w) (hm : 1 ≤ m)
    (hMeans : cf.Means = [] ∨ m ≤ cf.Means.length) :
    ∃ N cf', Normalize cf = some (N, cf') ∧
      cf'.Ratings = cf.Ratings ∧ cf'.AvailableRatings = cf.AvailableRatings := by
  obtain ⟨N, means, hN, -⟩ := normalize_spec cf m w hR hM hm hMeans
  exact ⟨N, { cf with Means := means }, hN, rfl, rfl⟩

/-- C14, on the running example, without and with cached means. -/
theorem Normalize_keeps_ratings_witness :
    (IsMat exCF.Ratings 2 2 ∧ IsMat exCF.AvailableRatings 2 2 ∧ exCF.Means = [] ∧
      ∃ N cf', Normalize exCF = some (N, cf') ∧
        cf'.Ratings = [[5, 0], [0, 4]] ∧ cf'.AvailableRatings = [[1, 0], [0, 1]]) ∧
    (IsMat exMeansCF.Ratings 2 2 ∧ IsMat exMeansCF.AvailableRatings 2 2 ∧
      2 ≤ exMeansCF.Means.length ∧
      ∃ N cf', Normalize exMeansCF = some (N, cf') ∧
        cf'.Ratings = [[5, 0], [0, 4]] ∧ cf'.AvailableRatings = [[1, 0], [0, 1]]) :=
  ⟨⟨by decide, by decide, rfl,
      Normalize_keeps_ratings exCF 2 2 (by decide) (by decide) (by decide) (Or.inl rfl)⟩,
    ⟨by decide, by decide, by decide,
      Normalize_keeps_ratings exMeansCF 2 2 (by decide) (by decide) (by decide)
        (Or.inr (by decide))⟩⟩

/-- C19: on a non-empty rectangular `Ratings` with a mask of the same shape and no means
cached, the matrix `N` that `Normalize` returns is the mean-centred ratings: for every row
`i` with an observed entry, the mean stored for the row is the sum of its observed ratings
divided by their number, `N[i][j]` is `Ratings[i][j]` minus that mean at every observed
cell and `0` at every other cell, the entries of `N` in the observed columns sum to `0`,
and so does the whole row. -/
theorem Normalize_row_sum_zero (cf : CollaborativeFilter) (m w : Nat)
    (hR : IsMat cf.Ratings m w) (hM : IsMat cf.AvailableRatings m w) (hm : 1 ≤ m)
    (hMeans : cf.Means = []) :
    ∃ N cf', Normalize cf = some (N, cf') ∧ IsMat N m w ∧
      ∀ i, i < m → (∃ j, j < w ∧ at2 cf.AvailableRatings i j = some 1) →
        cf'.Means[i]? = some
          ((∑ k in (Finset.range w).filter (fun k => at2 cf.AvailableRatings i k = some 1),
              ent cf.Ratings i k) /
            (((Finset.range w).filter
              (fun k => at2 cf.AvailableRatings i k = some 1)).card : ℚ)) ∧
        (∀ j, j < w → at2 cf.AvailableRatings i j = some 1 →
          ∃ rij, at2 cf.Ratings i j = some rij ∧ at2 N i j = some
            (rij -
              (∑ k in (Finset.range w).filter
                  (fun k => at2 cf.AvailableRatings i k = some 1), ent cf.Ratings i k) /
                (((Finset.range w).filter
                  (fun k => at2 cf.AvailableRatings i k = some 1)).card : ℚ))) ∧
        (∀ j, j < w → at2 cf.AvailableRatings i j ≠ some 1 → at2 N i j = some 0) ∧
        (∑ j in (Finset.range w).filter (fun j => at2 cf.AvailableRatings i j = some 1),
          ent N i j) = 0 ∧
        (∑ j in Finset.range w, ent N i j) = 0 := by
  obtain ⟨N, means, hN, hmean, -, hlen, hmat, hent⟩ :=
    normalize_spec cf m w hR hM hm (Or.inl hMeans)
  refine ⟨N, { cf with Means := means }, hN, hmat, ?_⟩
  intro i hi hobs
  have hmu : means.getD i 0 = rowMean cf.Ratings cf.AvailableRatings i w := by
    simp [List.getD_eq_getElem?_getD, hmean hMeans i hi]
  have hcell : ∀ j, j ∈ Finset.range w → ent N i j =
      if at2 cf.AvailableRatings i j = some 1
        then ent cf.Ratings i j - rowMean cf.Ratings cf.AvailableRatings i w else 0 := by
    intro j hj
    rw [ent_of_at2 (hent i j hi (Finset.mem_range.1 hj)), hmu]
  have hcard : ((observedCols cf.AvailableRatings i w).card : ℚ) ≠ 0 := by
    obtain ⟨j, hj, hj1⟩ := hobs
    have hmem : j ∈ observedCols cf.AvailableRatings i w := by
      simp [observedCols, hj, hj1]
    exact Nat.cast_ne_zero.2 (Finset.card_ne_zero_of_mem hmem)
  have hobsSum : (∑ j in observedCols cf.AvailableRatings i w,
      (ent cf.Ratings i j - rowMean cf.Ratings cf.AvailableRatings i w)) = 0 := by
    rw [Finset.sum_sub_distrib, Finset.sum_const, nsmul_eq_mul]
    unfold rowMean
    field_simp
  have hwhole : (∑ j in Finset.range w, ent N i j) = 0 := by
    rw [Finset.sum_congr rfl hcell, ← Finset.sum_filter]
    exact hobsSum
  have hsub : ∀ j, j ∈ (Finset.range w).filter
      (fun j => at2 cf.AvailableRatings i j = some 1) →
      ent N i j = ent cf.Ratings i j - rowMean cf.Ratings cf.AvailableRatings i w := by
    intro j hj
    rw [hcell j (Finset.mem_filter.1 hj).1, if_pos (Finset.mem_filter.1 hj).2]
  refine ⟨hmean hMeans i hi, ?_, ?_, ?_, hwhole⟩
  · intro j hj hj1
    refine ⟨ent cf.Ratings i j, hR.at2_eq hi hj, ?_⟩
    rw [hent i j hi hj, if_pos hj1, hmu]
    rfl
  · intro j hj hj1
    rw [hent i j hi hj, if_neg hj1]
  · rw [Finset.sum_congr rfl hsub]
    exact hobsSum

/-- C19, on a filter whose first row has the observed ratings `5` and `3`: the mean is
`4` and the normalised row is `1, 0, -1`. -/
theorem Normalize_row_sum_zero_witness :
    IsMat twoVotesCF.Ratings 2 3 ∧ IsMat twoVotesCF.AvailableRatings 2 3 ∧
    twoVotesCF.Means = [] ∧
    Normalize twoVotesCF
      = some ([[1, 0, -1], [0, 0, 0]], { twoVotesCF with Means := [4, 4] }) ∧
    ∃ N cf', Normalize twoVotesCF = some (N, cf') ∧ IsMat N 2 3 ∧
      ∀ i, i < 2 → (∃ j, j < 3 ∧ at2 twoVotesCF.AvailableRatings i j = some 1) →
        cf'.Means[i]? = some
          ((∑ k in (Finset.range 3).filter
              (fun k => at2 twoVotesCF.AvailableRatings i k = some 1),
              ent twoVotesCF.Ratings i k) /
            (((Finset.range 3).filter
              (fun k => at2 twoVotesCF.AvailableRatings i k = some 1)).card : ℚ)) ∧
        (∀ j, j < 3 → at2 twoVotesCF.AvailableRatings i j = some 1 →
          ∃ rij, at2 twoVotesCF.Ratings i j = some rij ∧ at2 N i j = some
            (rij -
              (∑ k in (Finset.range 3).filter
                  (fun k => at2 twoVotesCF.AvailableRatings i k = some 1),
                  ent twoVotesCF.Ratings i k) /
                (((Finset.range 3).filter
                  (fun k => at2 twoVotesCF.AvailableRatings i k = some 1)).card : ℚ))) ∧
        (∀ j, j < 3 → at2 twoVotesCF.AvailableRatings i j ≠ some 1 →
          at2 N i j = some 0) ∧
        (∑ j in (Finset.range 3).filter
          (fun j => at2 twoVotesCF.AvailableRatings i j = some 1), ent N i j) = 0 ∧
        (∑ j in Finset.range 3, ent N i j) = 0 :=
  ⟨by decide, by decide, rfl,
    by norm_num [Normalize, CalcMeans, twoVotesCF, currentCF, loadedCF, forLoop, at2, setAt,
      List.replicate],
    Normalize_row_sum_zero twoVotesCF 2 3 (by decide) (by decide) (by decide) rfl⟩

/-! ## Predictor -/

/-- Invariant rule for a loop whose result is the result of the function. -/
theorem forLoop_post {σ : Type} (body : Nat → σ → Option σ) (n : Nat) (s : σ)
    (inv : Nat → σ → Prop) (Q : σ → Prop) (h0 : inv 0 s)
    (hstep : ∀ i, i < n → ∀ t, inv i t → ∃ t', body i t = some t' ∧ inv (i + 1) t')
    (hpost : ∀ s', inv n s' → Q s') :
    ∃ s', forLoop body n s = some s' ∧ Q s' := by
  obtain ⟨s', hs', hinv⟩ := forLoop_inv body inv n s h0 hstep
  exact ⟨s', hs', hpost s' hinv⟩

/-- Two loops whose bodies agree at every index below the bound are the same. -/
theorem forLoop_congr {σ : Type} (b1 b2 : Nat → σ → Option σ) (n : Nat)
    (h : ∀ i, i < n → ∀ s, b1 i s = b2 i s) (s : σ) :
    forLoop b1 n s = forLoop b2 n s := by
  induction n with
  | zero => rfl
  | succ k ih =>
    rw [forLoop_succ, forLoop_succ, ih (fun i hi => h i (Nat.lt_succ_of_lt hi))]
    cases forLoop b2 k s with
    | none => rfl
    | some t => exact h k (Nat.lt_succ_self k) t

/-- What `MakePredictions` stores: the table of the inner products of the rows of
`ItemsTheta` and `Theta`; no other field changes. -/
theorem makePredictions_spec (cf : CollaborativeFilter) (m n f : Nat)
    (hP : IsMat cf.ItemsTheta m f) (hQ : IsMat cf.Theta n f) :
    MakePredictions cf = some { cf with Predictions := (matOf m n fun i u =>
      ∑ k in Finset.range f, ent cf.ItemsTheta i k * ent cf.Theta u k) } := by
  have h : mt.MultTrans cf.ItemsTheta cf.Theta = some (matOf m n fun i u =>
      ∑ k in Finset.range f, ent cf.ItemsTheta i k * ent cf.Theta u k) := by
    conv_lhs => rw [hP.eq_matOf, hQ.eq_matOf]
    exact MultTrans_matOf m n f _ _
  unfold MakePredictions
  rw [h]
  rfl

/-- What `GetPredictionsFor` returns when `Predictions` is an `m × n` table, `Ratings` has
`m` rows and there is a mean for every row. -/
theorem getPredictionsFor_spec (cf : CollaborativeFilter) (m n : Nat)
    (hPr : IsMat cf.Predictions m n) (hRl : cf.Ratings.length = m)
    (hMl : m ≤ cf.Means.length) (u : Nat) (hu : u < n) :
    ∃ preds, GetPredictionsFor cf (u : Int) = some preds ∧ preds.length = m ∧
      ∀ i, i < m → preds[i]? = some (ent cf.Predictions i u + cf.Means.getD i 0) := by
  unfold GetPredictionsFor
  rw [hPr.1, hRl]
  refine forLoop_post _ _ _
    (fun k (t : List ℚ) => t.length = m ∧
      ∀ i, i < k → t[i]? = some (ent cf.Predictions i u + cf.Means.getD i 0)) _
    ⟨by simp, fun i hi => absurd hi (Nat.not_lt_zero i)⟩ ?_ ?_
  · intro i hi t ⟨hl, hdone⟩
    obtain ⟨row, hrow, hrl⟩ := hPr.row hi
    have hu' : u < row.length := by omega
    have hil : i < cf.Means.length := by omega
    have hit : i < t.length := by omega
    have hent : ent cf.Predictions i u = row[u] := by
      simp [ent, at2, hrow, List.getElem?_eq_getElem hu']
    have hmean : cf.Means.getD i 0 = cf.Means[i] := by
      simp [List.getD_eq_getElem?_getD, List.getElem?_eq_getElem hil]
    refine ⟨t.set i (row[u] + cf.Means[i]), ?_, by simp [hl], ?_⟩
    · have hneg : ¬ ((u : Int) < 0) := by omega
      simp [hrow, hneg, List.getElem?_eq_getElem hu', List.getElem?_eq_getElem hil, setAt, hit]
    · intro a ha
      by_cases hai : a = i
      · subst hai
        rw [List.getElem?_set_self hit, hent, hmean]
      · rw [List.getElem?_set_ne (Ne.symm hai)]
        exact hdone a (by omega)
  · intro preds h
    exact h

/-- C12: for a filter with `ItemsTheta` `m × f`, `Theta` `n × f`, one mean per item and
`m` rating rows, on which `MakePredictions` is run, and every `userPos < n`,
`GetPredictionsFor` returns a vector of length `m` whose entry `i` is
`Σ_k P[i][k]·Q[userPos][k] + Means[i]`. -/
theorem GetPredictionsFor_after_MakePredictions (cf : CollaborativeFilter) (m n f : Nat)
    (hP : IsMat cf.ItemsTheta m f) (hQ : IsMat cf.Theta n f)
    (hMl : cf.Means.length = m) (hRl : cf.Ratings.length = m)
    (userPos : Nat) (hu : userPos < n) :
    ∃ cf1 preds, MakePredictions cf = some cf1 ∧
      GetPredictionsFor cf1 (userPos : Int) = some preds ∧ preds.length = m ∧
      ∀ i, i < m → ∃ mean, cf.Means[i]? = some mean ∧
        preds[i]? = some
          ((∑ k in Finset.range f, ent cf.ItemsTheta i k * ent cf.Theta userPos k)
            + mean) := by
  have hmk := makePredictions_spec cf m n f hP hQ
  obtain ⟨preds, hget, hlen, hent⟩ :=
    getPredictionsFor_spec { cf with Predictions := (matOf m n fun i u =>
        ∑ k in Finset.range f, ent cf.ItemsTheta i k * ent cf.Theta u k) } m n
      (isMat_matOf _ _ _) hRl (le_of_eq hMl.symm) userPos hu
  refine ⟨_, preds, hmk, hget, hlen, ?_⟩
  intro i hi
  have hil : i < cf.Means.length := by omega
  refine ⟨cf.Means[i], List.getElem?_eq_getElem hil, ?_⟩
  rw [hent i hi, ent_matOf _ hi hu]
  simp [List.getD_eq_getElem?_getD, List.getElem?_eq_getElem hil]

/-- C12, on the running example with cached means `5`, `4` and the user in column `1`:
the predictions are `23 + 5` and `53 + 4`. -/
theorem GetPredictionsFor_after_MakePredictions_witness :
    IsMat exMeansCF.ItemsTheta 2 2 ∧ IsMat exMeansCF.Theta 2 2 ∧
    (MakePredictions exMeansCF).bind (fun cf1 => GetPredictionsFor cf1 1) = some [28, 57] ∧
    ∃ cf1 preds, MakePredictions exMeansCF = some cf1 ∧
      GetPredictionsFor cf1 ((1 : Nat) : Int) = some preds ∧ preds.length = 2 := by
  refine ⟨by decide, by decide, ?_, ?_⟩
  · norm_num [MakePredictions, GetPredictionsFor, exMeansCF, exCF, mt.MultTrans, mt.dot,
      forLoop, setAt, List.replicate]
  · obtain ⟨cf1, preds, h1, h2, h3, -⟩ :=
      GetPredictionsFor_after_MakePredictions exMeansCF 2 2 2 (by decide) (by decide)
        (by decide) (by decide) 1 (by decide)
    exact ⟨cf1, preds, h1, h2, h3⟩

/-- C13 as stated fails: on the running example with cached means `5`, `4`, the entry
`(0, 0)` that `MakePredictions` stores is `(P·Qᵗ)[0][0] = 17`, not `17 + 5`. -/
theorem MakePredictions_counterexample :
    exMeansCF.Means = [5, 4] ∧
    (∑ k in Finset.range 2, ent exMeansCF.ItemsTheta 0 k * ent exMeansCF.Theta 0 k)
      + 5 = 22 ∧
    MakePredictions exMeansCF
      = some { exMeansCF with Predictions := [[17, 23], [39, 53]] } := by
  refine ⟨rfl, ?_, ?_⟩
  · norm_num [ent, at2, exMeansCF, exCF, Finset.sum_range_succ]
  · norm_num [MakePredictions, exMeansCF, exCF, mt.MultTrans, mt.dot]

/-- C13, amended: for a filter with `ItemsTheta` `m × f` and `Theta` `n × f`,
`MakePredictions` stores a dense `m × n` matrix whose entry `(i, u)` is `(P·Qᵗ)[i][u]`,
without the item mean, and changes no other field (the mean of the row is added by
`GetPredictionsFor`). -/
theorem MakePredictions_entries (cf : CollaborativeFilter) (m n f : Nat)
    (hP : IsMat cf.ItemsTheta m f) (hQ : IsMat cf.Theta n f) :
    ∃ predictions, MakePredictions cf = some { cf with Predictions := predictions } ∧
      IsMat predictions m n ∧
      ∀ i u, i < m → u < n → at2 predictions i u =
        some (∑ k in Finset.range f, ent cf.ItemsTheta i k * ent cf.Theta u k) :=
  ⟨_, makePredictions_spec cf m n f hP hQ, isMat_matOf _ _ _,
    fun _ _ hi hu => at2_matOf _ hi hu⟩

/-- C13 amended, on the running example. -/
theorem MakePredictions_entries_witness :
    IsMat exMeansCF.ItemsTheta 2 2 ∧ IsMat exMeansCF.Theta 2 2 ∧
    ∃ predictions,
      MakePredictions exMeansCF = some { exMeansCF with Predictions := predictions } ∧
      IsMat predictions 2 2 ∧
      ∀ i u, i < 2 → u < 2 → at2 predictions i u =
        some (∑ k in Finset.range 2, ent exMeansCF.ItemsTheta i k * ent exMeansCF.Theta u k) :=
  ⟨by decide, by decide, MakePredictions_entries exMeansCF 2 2 2 (by decide) (by decide)⟩

/-! ## Degenerate rows and unknown items -/

/-- C17 as stated fails: the second row of `degenerateCF` has no observed entry, and
`CalcMeans` and `Normalize` return normally, with the quotient `0 / 0` stored as the mean
of that row. -/
theorem CalcMeans_degenerate_counterexample :
    observedCols degenerateCF.AvailableRatings 1 2 = ∅ ∧
    CalcMeans degenerateCF = some { degenerateCF with Means := [5, 0 / 0] } ∧
    Normalize degenerateCF
      = some ([[0, 0], [0, 0]], { degenerateCF with Means := [5, 0 / 0] }) := by
  refine ⟨by decide, ?_, ?_⟩
  · simp [CalcMeans, degenerateCF, forLoop, at2, setAt, List.replicate]
  · simp [Normalize, CalcMeans, degenerateCF, forLoop, at2, setAt, List.replicate]

/-- C17, amended: on every non-empty rectangular `Ratings` with a mask of the same shape,
also one with rows without any observed entry, computing the means reports nothing:
`CalcMeans` returns normally with one entry per row, which for a row without observed
entries is the quotient `0 / 0` and for every other row the mean of its observed entries,
and `Normalize`, when it computes the means, returns normally too. -/
theorem CalcMeans_degenerate_row (cf : CollaborativeFilter) (m w : Nat)
    (hR : IsMat cf.Ratings m w) (hM : IsMat cf.AvailableRatings m w) (hm : 1 ≤ m) :
    (∃ means, CalcMeans cf = some { cf with Means := means } ∧ means.length = m ∧
      (∀ i, i < m → observedCols cf.AvailableRatings i w = ∅ → means[i]? = some (0 / 0)) ∧
      (∀ i, i < m → (observedCols cf.AvailableRatings i w).Nonempty →
        means[i]? = some (rowMean cf.Ratings cf.AvailableRatings i w))) ∧
    (cf.Means = [] → ∃ N cf', Normalize cf = some (N, cf') ∧ cf'.Means.length = m) := by
  obtain ⟨means, hcalc, hl, hmean⟩ := calcMeans_spec cf m w hR hM hm
  refine ⟨⟨means, hcalc, hl, ?_, fun i hi _ => hmean i hi⟩, ?_⟩
  · intro i hi hempty
    rw [hmean i hi]
    simp [rowMean, hempty]
  · intro hempty
    obtain ⟨N, hN, -⟩ :=
      normalize_rest { cf with Means := means } m w hR hM hm (by simp [hl])
    refine ⟨N, { cf with Means := means }, ?_, hl⟩
    unfold Normalize
    rw [if_pos (by simp [hempty]), hcalc]
    exact hN

/-- C17 amended, on `degenerateCF`. -/
theorem CalcMeans_degenerate_row_witness :
    IsMat degenerateCF.Ratings 2 2 ∧ IsMat degenerateCF.AvailableRatings 2 2 ∧
    ((∃ means, CalcMeans degenerateCF = some { degenerateCF with Means := means } ∧
      means.length = 2 ∧
      (∀ i, i < 2 → observedCols degenerateCF.AvailableRatings i 2 = ∅ →
        means[i]? = some (0 / 0)) ∧
      (∀ i, i < 2 → (observedCols degenerateCF.AvailableRatings i 2).Nonempty →
        means[i]? = some (rowMean degenerateCF.Ratings degenerateCF.AvailableRatings i 2))) ∧
    (degenerateCF.Means = [] →
      ∃ N cf', Normalize degenerateCF = some (N, cf') ∧ cf'.Means.length = 2)) :=
  ⟨by decide, by decide,
    CalcMeans_degenerate_row degenerateCF 2 2 (by decide) (by decide) (by decide)⟩

/-- `AddUser` reads `votes` only at the indices of the rows of `Ratings`. -/
theorem addUser_congr (cf : CollaborativeFilter) (votes votes' : Int → Option ℚ)
    (draws : Nat → ℚ)
    (h : ∀ i : Nat, i < cf.Ratings.length → votes (i : Int) = votes' (i : Int)) :
    AddUser cf votes draws = AddUser cf votes' draws := by
  unfold AddUser
  congr 1
  apply forLoop_congr
  intro i hi t
  beta_reduce
  rw [h i hi]

/-- C18 as stated fails: `votes = {5: 3.0}` has a key outside `[0, 2)`, and `AddUser`
returns normally, with a column appended to `Ratings` and `AvailableRatings` and a row
appended to `Theta`. -/
theorem AddUser_unknown_item_counterexample :
    AddUser exCF (fun k => if k = 5 then some 3 else none) (fun _ => 0) =
      some { exCF with Ratings := [[5, 0, 0], [0, 4, 0]],
                       AvailableRatings := [[1, 0, 0], [0, 1, 0]],
                       Theta := [[5, 6], [7, 8], [0, 0]] } := by
  norm_num [AddUser, exCF, forLoop, setAt, List.replicate]

/-- C18, amended: for every filter whose mask has a row for every row of `Ratings` and
whose `Features` is not negative, and every `votes`, also one with keys outside
`[0, itemCount)`, `AddUser` reports no error and does not abort: the keys outside are
ignored (the call is the call with those keys removed), every row of `Ratings` gains one
entry and `Theta` gains one row. -/
theorem AddUser_ignores_unknown_items (cf : CollaborativeFilter) (votes : Int → Option ℚ)
    (draws : Nat → ℚ) (hA : cf.Ratings.length ≤ cf.AvailableRatings.length)
    (hF : 0 ≤ cf.Features) :
    ∃ cf', AddUser cf votes draws = some cf' ∧
      AddUser cf (fun k => if 0 ≤ k ∧ k < (cf.Ratings.length : Int) then votes k else none)
        draws = some cf' ∧
      (∀ i, i < cf.Ratings.length → ∃ r x,
        cf.Ratings[i]? = some r ∧ cf'.Ratings[i]? = some (r ++ [x])) ∧
      cf'.Theta.length = cf.Theta.length + 1 := by
  obtain ⟨cf', hadd, -, -, hrows, -, ⟨row, hT, -⟩, -⟩ := addUser_spec cf votes draws hA hF
  refine ⟨cf', hadd, ?_, ?_, ?_⟩
  · rw [← hadd]
    apply addUser_congr
    intro i hi
    have h1 : (0 : Int) ≤ (i : Int) := Int.ofNat_nonneg i
    have h2 : (i : Int) < (cf.Ratings.length : Int) := Int.ofNat_lt.2 hi
    simp only [h1, h2, and_self, if_true]
  · intro i hi
    obtain ⟨r, a, h1, -, h3, -⟩ := hrows i hi
    exact ⟨r, _, h1, h3⟩
  · rw [hT]
    simp

/-- C18 amended, on the running example with `votes = {5: 3.0}`. -/
theorem AddUser_ignores_unknown_items_witness :
    exCF.Ratings.length ≤ exCF.AvailableRatings.length ∧ 0 ≤ exCF.Features ∧
    ∃ cf', AddUser exCF (fun k => if k = 5 then some 3 else none) (fun _ => 0) = some cf' ∧
      AddUser exCF (fun k => if 0 ≤ k ∧ k < (exCF.Ratings.length : Int)
        then (if k = 5 then some 3 else none) else none) (fun _ => 0) = some cf' ∧
      (∀ i, i < exCF.Ratings.length → ∃ r x,
        exCF.Ratings[i]? = some r ∧ cf'.Ratings[i]? = some (r ++ [x])) ∧
      cf'.Theta.length = exCF.Theta.length + 1 :=
  ⟨by decide, by decide,
    AddUser_ignores_unknown_items exCF (fun k => if k = 5 then some 3 else none)
      (fun _ => 0) (by decide) (by decide)⟩

/-- When `Features` is the feature width of the factor matrices, `AddUser` keeps the
shapes consistent: one more user column in `Ratings` and the mask, one more row of the
same width in `Theta`. -/
theorem addUser_keeps_shape (cf : CollaborativeFilter) (votes : Int → Option ℚ)
    (draws : Nat → ℚ) (m n f : Nat) (hS : Shaped cf m n f) (hFeat : cf.Features = (f : Int)) :
    ∃ cf', AddUser cf votes draws = some cf' ∧ Shaped cf' m (n + 1) f := by
  obtain ⟨hP, hQ, hR, hM⟩ := hS
  have hF : 0 ≤ cf.Features := by rw [hFeat]; exact Int.ofNat_nonneg f
  obtain ⟨cf', hadd, hRl, hAl, hrows, -, ⟨row, hT, hrl, -⟩, hI, -⟩ :=
    addUser_spec cf votes draws (by rw [hR.1, hM.1]) hF
  have hrl' : row.length = f := by rw [hrl, hFeat]; rfl
  refine ⟨cf', hadd, by rw [hI]; exact hP, ?_, ?_, ?_⟩
  · rw [hT]
    refine ⟨by simp [hQ.1], ?_⟩
    intro r hr
    rcases List.mem_append.1 hr with h | h
    · exact hQ.2 r h
    · rw [List.mem_singleton.1 h]
      exact hrl'
  · refine isMat_of_rows (by rw [hRl, hR.1]) ?_
    intro i hi
    obtain ⟨r, a, h1, -, h3, -⟩ := hrows i (by rw [hR.1]; exact hi)
    obtain ⟨r', hr', hlen⟩ := hR.row hi
    rw [hr'] at h1
    cases h1
    exact ⟨_, h3, by simp [hlen]⟩
  · refine isMat_of_rows (by rw [hAl, hM.1]) ?_
    intro i hi
    obtain ⟨r, a, -, h2, -, h4⟩ := hrows i (by rw [hR.1]; exact hi)
    obtain ⟨a', ha', hlen⟩ := hM.row hi
    rw [ha'] at h2
    cases h2
    exact ⟨_, h4, by simp [hlen]⟩

/-- C16, at a loaded filter: the factor matrices of `loadedCF` have feature width `2`,
its `Features` is `0`, and the row `AddUser` appends to `Theta` is empty, so `Theta` is
no longer a matrix with one feature width. -/
theorem AddUser_loaded_filter_theta_row :
    Shaped loadedCF 2 2 2 ∧
    AddUser loadedCF (fun k => if k = 0 then some 3 else none) (fun _ => 0) =
      some { loadedCF with Ratings := [[5, 0, 3], [0, 4, 0]],
                           AvailableRatings := [[1, 0, 1], [0, 1, 0]],
                           Theta := [[5, 6], [7, 8], []] } ∧
    ¬ IsMat [[5, 6], [7, 8], []] 3 2 := by
  refine ⟨by decide, ?_, by decide⟩
  norm_num [AddUser, loadedCF, forLoop, setAt, List.replicate]

/-! ## Factor model -/

theorem inUnit_set {A : Mat} {row : List ℚ} (hA : InUnit A) (j : Nat)
    (hrow : ∀ x ∈ row, -1 < x ∧ x < 1) : InUnit (A.set j row) := by
  intro r hr x hx
  rcases List.mem_or_eq_of_mem_set hr with h | h
  · exact hA r h x hx
  · subst h
    exact hrow x hx

/-- One row of `InitializeThetas`: every entry of row `j` is assigned a draw or the
negation of a draw. -/
theorem initializeThetas_row (draws : Nat → ℚ) (hd : ∀ k, 0 ≤ draws k ∧ draws k < 1)
    (rows F j : Nat) (hj : j < rows) (A : Mat) (k0 : Nat) (hl : A.length = rows)
    (hdone : ∀ a, a ≤ j → ∃ row, A[a]? = some row ∧ row.length = F) (hU : InUnit A) :
    ∃ st, forLoop (fun i (st : Mat × Nat) => do
        let row ← st.1[j]?
        if draws st.2 > 0.5 then do
          let row ← setAt row i (draws (st.2 + 1))
          let theta ← setAt st.1 j row
          pure (theta, st.2 + 2)
        else do
          let row ← setAt row i (0 - draws (st.2 + 1))
          let theta ← setAt st.1 j row
          pure (theta, st.2 + 2)) F (A, k0) = some st ∧
      st.1.length = rows ∧
      (∀ a, a ≤ j → ∃ row, st.1[a]? = some row ∧ row.length = F) ∧ InUnit st.1 := by
  refine forLoop_post _ _ _
    (fun _ (st : Mat × Nat) => st.1.length = rows ∧
      (∀ a, a ≤ j → ∃ row, st.1[a]? = some row ∧ row.length = F) ∧ InUnit st.1) _
    ⟨hl, hdone, hU⟩ ?_ (fun _ h => h)
  intro i hi st ⟨hsl, hsdone, hsU⟩
  obtain ⟨row, hrow, hrl⟩ := hsdone j (le_refl j)
  have hil : i < row.length := by omega
  have hjl : j < st.1.length := by omega
  have hrowU : ∀ x ∈ row, -1 < x ∧ x < 1 :=
    hsU row (List.getElem?_mem hrow)
  have hpost : ∀ v : ℚ, -1 < v ∧ v < 1 → ∀ k : Nat,
      (st.1.set j (row.set i v)).length = rows ∧
      (∀ a, a ≤ j → ∃ r, (st.1.set j (row.set i v))[a]? = some r ∧ r.length = F) ∧
      InUnit (st.1.set j (row.set i v)) := by
    intro v hv _
    refine ⟨by simp [hsl], ?_, ?_⟩
    · intro a ha
      by_cases haj : a = j
      · subst haj
        exact ⟨row.set i v, List.getElem?_set_self hjl, by simp [hrl]⟩
      · rw [List.getElem?_set_ne (Ne.symm haj)]
        exact hsdone a ha
    · apply inUnit_set hsU
      intro x hx
      rcases List.mem_or_eq_of_mem_set hx with h | h
      · exact hrowU x h
      · subst h
        exact hv
  have hdk := hd (st.2 + 1)
  by_cases hgt : draws st.2 > 0.5
  · refine ⟨(st.1.set j (row.set i (draws (st.2 + 1))), st.2 + 2), ?_,
      hpost _ ⟨by linarith [hdk.1], hdk.2⟩ 0⟩
    simp [hrow, hgt, setAt, hil, hjl]
  · refine ⟨(st.1.set j (row.set i (0 - draws (st.2 + 1))), st.2 + 2), ?_,
      hpost _ ⟨by linarith [hdk.2], by linarith [hdk.1]⟩ 0⟩
    simp [hrow, hgt, setAt, hil, hjl]

/-- One matrix of `InitializeThetas`: `rows` rows of `features` entries, each strictly
between `-1` and `1`. -/
theorem initializeThetas_fill (features : Int) (hf : 0 ≤ features) (draws : Nat → ℚ)
    (hd : ∀ k, 0 ≤ draws k ∧ draws k < 1) (rows k0 : Nat) :
    ∃ st, forLoop (fun j (st : Mat × Nat) =>
        if features < 0 then none
        else do
          let theta ← setAt st.1 j (List.replicate features.toNat 0)
          forLoop (fun i (st : Mat × Nat) => do
              let row ← st.1[j]?
              if draws st.2 > 0.5 then do
                let row ← setAt row i (draws (st.2 + 1))
                let theta ← setAt st.1 j row
                pure (theta, st.2 + 2)
              else do
                let row ← setAt row i (0 - draws (st.2 + 1))
                let theta ← setAt st.1 j row
                pure (theta, st.2 + 2))
            features.toNat (theta, st.2))
        rows (List.replicate rows [], k0) = some st ∧
      IsMat st.1 rows features.toNat ∧ InUnit st.1 := by
  refine forLoop_post _ _ _
    (fun n (st : Mat × Nat) => st.1.length = rows ∧
      (∀ a, a < n → ∃ row, st.1[a]? = some row ∧ row.length = features.toNat) ∧
      InUnit st.1) _ ⟨by simp, fun a ha => absurd ha (Nat.not_lt_zero a), ?_⟩ ?_ ?_
  · intro row hrow x hx
    rw [(List.mem_replicate.1 hrow).2] at hx
    simp at hx
  · intro j hj st ⟨hsl, hsdone, hsU⟩
    have hjl : j < st.1.length := by omega
    have hzero : ∀ x ∈ List.replicate features.toNat (0 : ℚ), -1 < x ∧ x < 1 := by
      intro x hx
      rw [(List.mem_replicate.1 hx).2]
      norm_num
    obtain ⟨st', hst', h1, h2, h3⟩ :=
      initializeThetas_row draws hd rows features.toNat j hj
        (st.1.set j (List.replicate features.toNat 0)) st.2 (by simp [hsl])
        (by
          intro a ha
          by_cases haj : a = j
          · subst haj
            exact ⟨_, List.getElem?_set_self hjl, by simp⟩
          · rw [List.getElem?_set_ne (Ne.symm haj)]
            exact hsdone a (by omega))
        (inUnit_set hsU j hzero)
    refine ⟨st', ?_, h1, fun a ha => h2 a (by omega), h3⟩
    beta_reduce
    rw [if_neg (by omega)]
    simp only [setAt, if_pos hjl, Option.bind_eq_bind, Option.some_bind]
    simp only [Option.bind_eq_bind] at hst'
    exact hst'
  · intro st ⟨hsl, hsdone, hsU⟩
    exact ⟨isMat_of_rows hsl hsdone, hsU⟩

/-- What `InitializeThetas` does on a non-empty rectangular `Ratings`, for a feature
count that is not negative and draws in `[0, 1)`. -/
theorem initializeThetas_spec (cf : CollaborativeFilter) (m w : Nat)
    (hR : IsMat cf.Ratings m w) (hm : 1 ≤ m) (features : Int) (hf : 0 ≤ features)
    (draws : Nat → ℚ) (hd : ∀ k, 0 ≤ draws k ∧ draws k < 1) :
    ∃ A B, InitializeThetas cf features draws
        = some { cf with Features := features, ItemsTheta := A, Theta := B } ∧
      IsMat A m features.toNat ∧ IsMat B w features.toNat ∧ InUnit A ∧ InUnit B := by
  obtain ⟨r0, hr0, hr0len⟩ := hR.row (i := 0) (by omega)
  have hRl := hR.1
  obtain ⟨st1, h1, hA, hAU⟩ := initializeThetas_fill features hf draws hd m 0
  obtain ⟨st2, h2, hB, hBU⟩ := initializeThetas_fill features hf draws hd w st1.2
  refine ⟨st1.1, st2.1, ?_, hA, hB, hAU, hBU⟩
  simp only [Option.bind_eq_bind] at h1 h2
  simp only [InitializeThetas, Option.bind_eq_bind, hRl, hr0, Option.some_bind, hr0len,
    h1, h2]
  rfl

/-- C15: for a filter whose `Ratings` is a non-empty `itemCount × userCount` rectangle,
every feature count `features ≥ 0` (in particular `≥ 1`) and every sequence of draws in
`[0, 1)`, `InitializeThetas` sets `Features`, makes `ItemsTheta` an
`itemCount × features` matrix and `Theta` a `userCount × features` matrix, and every entry
of both lies strictly between `-1` and `1`. -/
theorem InitializeThetas_shapes_and_range (cf : CollaborativeFilter) (m w : Nat)
    (hR : IsMat cf.Ratings m w) (hm : 1 ≤ m) (features : Int) (hf : 0 ≤ features)
    (draws : Nat → ℚ) (hd : ∀ k, 0 ≤ draws k ∧ draws k < 1) :
    ∃ cf', InitializeThetas cf features draws = some cf' ∧
      cf'.Features = features ∧
      IsMat cf'.ItemsTheta m features.toNat ∧ IsMat cf'.Theta w features.toNat ∧
      (∀ i j x, at2 cf'.ItemsTheta i j = some x → -1 < x ∧ x < 1) ∧
      (∀ i j x, at2 cf'.Theta i j = some x → -1 < x ∧ x < 1) := by
  obtain ⟨A, B, hinit, hA, hB, hAU, hBU⟩ :=
    initializeThetas_spec cf m w hR hm features hf draws hd
  have hbound : ∀ C : Mat, InUnit C → ∀ i j x, at2 C i j = some x → -1 < x ∧ x < 1 := by
    intro C hC i j x hx
    unfold at2 at hx
    cases hrow : C[i]? with
    | none => simp [hrow] at hx
    | some row =>
      rw [hrow, Option.some_bind] at hx
      exact hC row (List.getElem?_mem hrow) x (List.getElem?_mem hx)
  exact ⟨_, hinit, rfl, hA, hB, hbound A hAU, hbound B hBU⟩

/-- C15, on the running example with two features and every draw equal to `3/4`: all
entries are `3/4`. -/
theorem InitializeThetas_shapes_and_range_witness :
    IsMat exCF.Ratings 2 2 ∧ ((0 : ℚ) ≤ 3 / 4 ∧ (3 / 4 : ℚ) < 1) ∧
    ∃ cf', InitializeThetas exCF 2 (fun _ => 3 / 4) = some cf' ∧
      cf'.Features = 2 ∧
      IsMat cf'.ItemsTheta 2 2 ∧ IsMat cf'.Theta 2 2 ∧
      (∀ i j x, at2 cf'.ItemsTheta i j = some x → -1 < x ∧ x < 1) ∧
      (∀ i j x, at2 cf'.Theta i j = some x → -1 < x ∧ x < 1) :=
  ⟨by decide, by norm_num,
    InitializeThetas_shapes_and_range exCF 2 2 (by decide) (by decide) 2 (by decide)
      (fun _ => 3 / 4) (fun _ => by norm_num)⟩

/-! ## Cached means along sequences of calls -/

/-- A loop with an iteration that always panics panics. -/
theorem forLoop_none {σ : Type} (body : Nat → σ → Option σ) (n : Nat) (s : σ) (i : Nat)
    (hi : i < n) (h : ∀ t, body i t = none) : forLoop body n s = none := by
  induction n with
  | zero => exact absurd hi (Nat.not_lt_zero i)
  | succ k ih =>
    rw [forLoop_succ]
    by_cases hik : i = k
    · subst hik
      cases forLoop body i s with
      | none => rfl
      | some t => exact h t
    · rw [ih (by omega)]
      rfl

/-- Frame of `InitializeThetas`: when it returns, the ratings, the mask and the means are
as before, and on a filter with a rating row the feature count is not negative. -/
theorem initializeThetas_frame (cf cf' : CollaborativeFilter) (features : Int)
    (draws : Nat → ℚ) (h : InitializeThetas cf features draws = some cf') :
    cf'.Ratings = cf.Ratings ∧ cf'.AvailableRatings = cf.AvailableRatings ∧
      cf'.Means = cf.Means ∧ cf'.Features = features ∧
      (1 ≤ cf.Ratings.length → 0 ≤ features) := by
  unfold InitializeThetas at h
  simp only [Option.bind_eq_bind, Option.bind_eq_some] at h
  obtain ⟨st1, h1, r0, -, st2, -, heq⟩ := h
  have heq' := Option.some.inj heq
  subst heq'
  refine ⟨rfl, rfl, rfl, rfl, ?_⟩
  intro hlen
  by_contra hneg
  rw [forLoop_none _ _ _ 0 hlen (fun t => by simp only [if_pos (lt_of_not_ge hneg)])] at h1
  exact Option.noConfusion h1

/-- Shape of the ratings after `AddUser`: one more column; the means are as before. -/
theorem addUser_shape (cf cf' : CollaborativeFilter) (votes : Int → Option ℚ)
    (draws : Nat → ℚ) (m w : Nat) (hR : IsMat cf.Ratings m w)
    (hM : IsMat cf.AvailableRatings m w) (hF : 0 ≤ cf.Features)
    (h : AddUser cf votes draws = some cf') :
    IsMat cf'.Ratings m (w + 1) ∧ IsMat cf'.AvailableRatings m (w + 1) ∧
      cf'.Means = cf.Means ∧ cf'.Features = cf.Features := by
  obtain ⟨cf'', hadd, hRl, hAl, hrows, -, -, -, hMe, hFe, -⟩ :=
    addUser_spec cf votes draws (by rw [hR.1, hM.1]) hF
  rw [h] at hadd
  have hcf := Option.some.inj hadd
  subst hcf
  refine ⟨?_, ?_, hMe, hFe⟩
  · refine isMat_of_rows (by rw [hRl, hR.1]) ?_
    intro i hi
    obtain ⟨r, a, h1, -, h3, -⟩ := hrows i (by rw [hR.1]; exact hi)
    obtain ⟨r', hr', hlen⟩ := hR.row hi
    rw [hr'] at h1
    cases h1
    exact ⟨_, h3, by simp [hlen]⟩
  · refine isMat_of_rows (by rw [hAl, hM.1]) ?_
    intro i hi
    obtain ⟨r, a, -, h2, -, h4⟩ := hrows i (by rw [hR.1]; exact hi)
    obtain ⟨a', ha', hlen⟩ := hM.row hi
    rw [ha'] at h2
    cases h2
    exact ⟨_, h4, by simp [hlen]⟩

/-- A call other than `AddUser`, made when the cached means are the means of the current
ratings, leaves them so. -/
theorem step_cached (c : Call) (hc : c.isAddUser = false) (cf cf' : CollaborativeFilter)
    (m w : Nat) (hm : 1 ≤ m) (hR : IsMat cf.Ratings m w)
    (hM : IsMat cf.AvailableRatings m w) (hlen : m ≤ cf.Means.length)
    (hcur : MeansCurrent cf m w) (hF : 0 ≤ cf.Features) (hrun : c.run cf = some cf') :
    IsMat cf'.Ratings m w ∧ IsMat cf'.AvailableRatings m w ∧ m ≤ cf'.Means.length ∧
      MeansCurrent cf' m w ∧ 0 ≤ cf'.Features := by
  cases c with
  | calcMeans =>
    obtain ⟨means, hcalc, hl, hmean⟩ := calcMeans_spec cf m w hR hM hm
    simp only [Call.run] at hrun
    rw [hcalc] at hrun
    have hcf := Option.some.inj hrun
    subst hcf
    exact ⟨hR, hM, le_of_eq hl.symm, hmean, hF⟩
  | normalize =>
    obtain ⟨N, means, hN, -, hsame, -⟩ := normalize_spec cf m w hR hM hm (Or.inr hlen)
    have hne : cf.Means ≠ [] := by
      intro h0
      rw [h0] at hlen
      simp at hlen
      omega
    simp only [Call.run] at hrun
    rw [hN, Option.map_some'] at hrun
    have hcf := Option.some.inj hrun
    subst hcf
    rw [hsame hne]
    exact ⟨hR, hM, hlen, hcur, hF⟩
  | initializeThetas features draws =>
    simp only [Call.run] at hrun
    obtain ⟨h1, h2, h3, h4, h5⟩ := initializeThetas_frame cf cf' features draws hrun
    refine ⟨by rw [h1]; exact hR, by rw [h2]; exact hM, by rw [h3]; exact hlen, ?_, ?_⟩
    · intro i hi
      rw [h1, h2, h3]
      exact hcur i hi
    · rw [h4]
      exact h5 (by rw [hR.1]; exact hm)
  | addUser votes draws => simp [Call.isAddUser] at hc

/-- Calls other than `AddUser` keep the cached means equal to the means of the current
ratings. -/
theorem run_cached (calls : List Call) (hcalls : calls.all (fun c => !c.isAddUser) = true)
    (m w : Nat) (hm : 1 ≤ m) (cf cf' : CollaborativeFilter) (hR : IsMat cf.Ratings m w)
    (hM : IsMat cf.AvailableRatings m w) (hlen : m ≤ cf.Means.length)
    (hcur : MeansCurrent cf m w) (hF : 0 ≤ cf.Features)
    (hrun : runCalls calls cf = some cf') :
    IsMat cf'.Ratings m w ∧ IsMat cf'.AvailableRatings m w ∧ m ≤ cf'.Means.length ∧
      MeansCurrent cf' m w ∧ 0 ≤ cf'.Features := by
  induction calls generalizing cf with
  | nil =>
    simp only [runCalls] at hrun
    have hcf := Option.some.inj hrun
    subst hcf
    exact ⟨hR, hM, hlen, hcur, hF⟩
  | cons c cs ih =>
    simp only [List.all_cons, Bool.and_eq_true, Bool.not_eq_true'] at hcalls
    simp only [runCalls, Option.bind_eq_some] at hrun
    obtain ⟨cf1, hstep, hrest⟩ := hrun
    obtain ⟨h1, h2, h3, h4, h5⟩ := step_cached c hcalls.1 cf cf1 m w hm hR hM hlen hcur hF hstep
    exact ih hcalls.2 cf1 h1 h2 h3 h4 h5 hrest

/-- Along a sequence of calls from a filter without cached means, in which no `AddUser`
follows a `CalcMeans` or a `Normalize`: the ratings stay a rectangle with the mask of the
same shape, and the means are still empty or are the means of the current ratings. -/
theorem run_fresh (calls : List Call) (horder : addUserFirst calls = true) (m : Nat)
    (hm : 1 ≤ m) (w : Nat) (cf cf' : CollaborativeFilter) (hR : IsMat cf.Ratings m w)
    (hM : IsMat cf.AvailableRatings m w) (hMeans : cf.Means = []) (hF : 0 ≤ cf.Features)
    (hrun : runCalls calls cf = some cf') :
    ∃ w', IsMat cf'.Ratings m w' ∧ IsMat cf'.AvailableRatings m w' ∧ 0 ≤ cf'.Features ∧
      (cf'.Means = [] ∨ (m ≤ cf'.Means.length ∧ MeansCurrent cf' m w')) := by
  induction calls generalizing cf w with
  | nil =>
    simp only [runCalls] at hrun
    have hcf := Option.some.inj hrun
    subst hcf
    exact ⟨w, hR, hM, hF, Or.inl hMeans⟩
  | cons c cs ih =>
    simp only [runCalls, Option.bind_eq_some] at hrun
    obtain ⟨cf1, hstep, hrest⟩ := hrun
    cases c with
    | calcMeans =>
      simp only [addUserFirst, Call.computesMeans, if_true] at horder
      obtain ⟨means, hcalc, hl, hmean⟩ := calcMeans_spec cf m w hR hM hm
      simp only [Call.run] at hstep
      rw [hcalc] at hstep
      have hcf := Option.some.inj hstep
      subst hcf
      obtain ⟨h1, h2, h3, h4, h5⟩ := run_cached cs horder m w hm
        { cf with Means := means } cf' hR hM (le_of_eq hl.symm) hmean hF hrest
      exact ⟨w, h1, h2, h5, Or.inr ⟨h3, h4⟩⟩
    | normalize =>
      simp only [addUserFirst, Call.computesMeans, if_true] at horder
      obtain ⟨N, means, hN, hmean, -, hl, -⟩ :=
        normalize_spec cf m w hR hM hm (Or.inl hMeans)
      simp only [Call.run] at hstep
      rw [hN, Option.map_some'] at hstep
      have hcf := Option.some.inj hstep
      subst hcf
      obtain ⟨h1, h2, h3, h4, h5⟩ := run_cached cs horder m w hm
        { cf with Means := means } cf' hR hM hl (hmean hMeans) hF hrest
      exact ⟨w, h1, h2, h5, Or.inr ⟨h3, h4⟩⟩
    | initializeThetas features draws =>
      simp only [addUserFirst, Call.computesMeans] at horder
      simp only [Call.run] at hstep
      obtain ⟨h1, h2, h3, h4, h5⟩ := initializeThetas_frame cf cf1 features draws hstep
      exact ih (by simpa using horder) w cf1 (by rw [h1]; exact hR) (by rw [h2]; exact hM)
        (by rw [h3]; exact hMeans) (by rw [h4]; exact h5 (by rw [hR.1]; exact hm)) hrest
    | addUser votes draws =>
      simp only [addUserFirst, Call.computesMeans] at horder
      simp only [Call.run] at hstep
      obtain ⟨h1, h2, h3, h4⟩ := addUser_shape cf cf1 votes draws m w hR hM hF hstep
      exact ih (by simpa using horder) (w + 1) cf1 h1 h2 (by rw [h3]; exact hMeans)
        (by rw [h4]; exact hF) hrest

/-- C20 as stated fails: from the loaded filter `loadedCF`, `CalcMeans` and then `AddUser`
with the votes `{0: 3.0}` lead to `staleCF`, where `Means[0]` is still `5` although row
`0` now has the observed entries `5` and `3`, whose mean is `4`; a `Normalize` call made
then subtracts `5`, so the new vote `3` becomes `-2`. -/
theorem cached_means_counterexample :
    runCalls [.calcMeans, .addUser exVotes (fun _ => 0)] loadedCF = some staleCF ∧
    staleCF.Means[0]? = some 5 ∧
    observedCols staleCF.AvailableRatings 0 3 = {0, 2} ∧
    rowMean staleCF.Ratings staleCF.AvailableRatings 0 3 = 4 ∧
    (Normalize staleCF).map (fun r => r.1) = some [[0, 0, -2], [0, 0, 0]] := by
  have hobs : observedCols staleCF.AvailableRatings 0 3 = {0, 2} := by decide
  refine ⟨?_, rfl, hobs, ?_, ?_⟩
  · norm_num [runCalls, Call.run, CalcMeans, AddUser, exVotes, staleCF, loadedCF, forLoop, at2,
      setAt, List.replicate]
  · unfold rowMean
    rw [hobs]
    norm_num [ent, at2, staleCF, loadedCF]
  · norm_num [Normalize, staleCF, loadedCF, forLoop, at2, setAt, List.replicate]

/-- C20, amended: in every state reached from a loaded filter (non-empty rectangular
`Ratings`, mask of the same shape, no means cached) by a sequence of `CalcMeans`,
`Normalize`, `InitializeThetas` and `AddUser` calls in which no `AddUser` follows a
`CalcMeans` or a `Normalize`, whenever `Means` is not empty, `Means[i]` is the mean of the
currently observed entries of row `i`, for every row with an observed entry. `AddUser`
itself returns with `Means` unchanged. -/
theorem cached_means_current (cf : CollaborativeFilter) (m w : Nat)
    (hR : IsMat cf.Ratings m w) (hM : IsMat cf.AvailableRatings m w) (hm : 1 ≤ m)
    (hMeans : cf.Means = []) (hF : 0 ≤ cf.Features)
    (calls : List Call) (horder : addUserFirst calls = true)
    (cf' : CollaborativeFilter) (hrun : runCalls calls cf = some cf') :
    ∃ w', IsMat cf'.Ratings m w' ∧ IsMat cf'.AvailableRatings m w' ∧
      (cf'.Means ≠ [] → ∀ i, i < m →
        (∃ j, j < w' ∧ at2 cf'.AvailableRatings i j = some 1) →
        cf'.Means[i]? = some (rowMean cf'.Ratings cf'.AvailableRatings i w')) ∧
      (∀ votes draws, ∃ cf'', AddUser cf' votes draws = some cf'' ∧
        cf''.Means = cf'.Means) := by
  obtain ⟨w', h1, h2, h3, h4⟩ := run_fresh calls horder m hm w cf cf' hR hM hMeans hF hrun
  refine ⟨w', h1, h2, ?_, ?_⟩
  · intro hne i hi _
    rcases h4 with h0 | ⟨-, hcur⟩
    · exact absurd h0 hne
    · exact hcur i hi
  · intro votes draws
    obtain ⟨cf'', hadd, -, -, -, -, -, -, hMe, -⟩ :=
      addUser_spec cf' votes draws (by rw [h1.1, h2.1]) h3
    exact ⟨cf'', hadd, hMe⟩

/-- C20 amended, on `loadedCF` with `AddUser` (votes `{0: 3.0}`) first, then `CalcMeans`
and `Normalize`: the means `4`, `4` include the new vote. -/
theorem cached_means_current_witness :
    IsMat loadedCF.Ratings 2 2 ∧ IsMat loadedCF.AvailableRatings 2 2 ∧
    loadedCF.Means = [] ∧
    addUserFirst [.addUser exVotes (fun _ => 0), .calcMeans, .normalize] = true ∧
    runCalls [.addUser exVotes (fun _ => 0), .calcMeans, .normalize] loadedCF
      = some currentCF ∧
    ∃ w', IsMat currentCF.Ratings 2 w' ∧ IsMat currentCF.AvailableRatings 2 w' ∧
      (currentCF.Means ≠ [] → ∀ i, i < 2 →
        (∃ j, j < w' ∧ at2 currentCF.AvailableRatings i j = some 1) →
        currentCF.Means[i]? = some (rowMean currentCF.Ratings currentCF.AvailableRatings i w')) ∧
      (∀ votes draws, ∃ cf'', AddUser currentCF votes draws = some cf'' ∧
        cf''.Means = currentCF.Means) := by
  have hrun : runCalls [.addUser exVotes (fun _ => 0), .calcMeans, .normalize] loadedCF
      = some currentCF := by
    norm_num [runCalls, Call.run, CalcMeans, Normalize, AddUser, exVotes, currentCF, loadedCF,
      forLoop, at2, setAt, List.replicate]
  exact ⟨by decide, by decide, rfl, rfl, hrun,
    cached_means_current loadedCF 2 2 (by decide) (by decide) (by decide) rfl (by decide)
      [.addUser exVotes (fun _ => 0), .calcMeans, .normalize] rfl currentCF hrun⟩

end ml
